import Mathlib

/-!
# Verification of the scarf.db mapping layer

Shallow embedding of the `scarf` crate (files `src/document.rs`,
`src/database.rs`, `src/error.rs`) in Lean 4, together with proofs about
the index-value encoding, the `Id` primary-key type, table-name
derivation, the database handle, and the transaction lifecycle.

Machine integers are modelled as `Nat` / `Int` with explicit bounds,
byte strings as `List Nat` (each element `< 256`), and Rust `HashMap`s
as association lists (iteration order abstracted; keys are unique in the
source because they come from a `HashMap`).
-/

namespace Scarf

/-! ## Byte-level helpers

Big-endian encodings are used by the msgpack codec (`rmp`) and by
`uuid::Uuid` (which stores its 128-bit value as 16 big-endian bytes);
little-endian encodings are used by `redb`'s `impl Value for u128`
(`to_le_bytes` / `from_le_bytes`). -/

/-- `w`-byte big-endian encoding of `n` (most significant byte first). -/
def beBytes : Nat → Nat → List Nat
  | 0, _ => []
  | w + 1, n => n / 256 ^ w :: beBytes w (n % 256 ^ w)

/-- Value of a big-endian byte string. -/
def beVal : List Nat → Nat
  | [] => 0
  | b :: bs => b * 256 ^ bs.length + beVal bs

/-- `w`-byte little-endian encoding of `n` (least significant byte first),
as produced by `u128::to_le_bytes`. -/
def leBytes : Nat → Nat → List Nat
  | 0, _ => []
  | w + 1, n => n % 256 :: leBytes w (n / 256)

/-- Value of a little-endian byte string, as computed by `u128::from_le_bytes`. -/
def leVal : List Nat → Nat
  | [] => 0
  | b :: bs => b + 256 * leVal bs

/-- Numeric comparison on `Nat`, the ordering used by `cmp` on unsigned
integers in Rust. -/
def natOrd (a b : Nat) : Ordering :=
  if a < b then .lt else if a = b then .eq else .gt

/-- Lexicographic comparison of byte strings: the derived `Ord` on
`[u8; 16]`, hence on `uuid::Uuid` (which derives `Ord` over its
big-endian byte array). -/
def lexCompare : List Nat → List Nat → Ordering
  | [], [] => .eq
  | [], _ :: _ => .lt
  | _ :: _, [] => .gt
  | a :: as', b :: bs' =>
    match natOrd a b with
    | .eq => lexCompare as' bs'
    | o => o

theorem natOrd_eq_lt {a b : Nat} : natOrd a b = .lt ↔ a < b := by
  unfold natOrd
  split_ifs <;> simp_all <;> omega

theorem natOrd_eq_eq {a b : Nat} : natOrd a b = .eq ↔ a = b := by
  unfold natOrd
  split_ifs <;> simp_all <;> omega

theorem natOrd_eq_gt {a b : Nat} : natOrd a b = .gt ↔ b < a := by
  unfold natOrd
  split_ifs <;> simp_all <;> omega

theorem beBytes_length (w n : Nat) : (beBytes w n).length = w := by
  induction w generalizing n with
  | zero => rfl
  | succ w ih => simp [beBytes, ih]

theorem beVal_beBytes (w n : Nat) (h : n < 256 ^ w) :
    beVal (beBytes w n) = n := by
  induction w generalizing n with
  | zero => simp [beBytes, beVal]; omega
  | succ w ih =>
    have hm : n % 256 ^ w < 256 ^ w := Nat.mod_lt _ (Nat.pos_pow_of_pos w (by omega))
    simp [beBytes, beVal, beBytes_length, ih _ hm]
    exact Nat.div_add_mod' n (256 ^ w)

theorem beBytes_lt (w n : Nat) (h : n < 256 ^ w) :
    ∀ b ∈ beBytes w n, b < 256 := by
  induction w generalizing n with
  | zero => simp [beBytes]
  | succ w ih =>
    intro b hb
    simp only [beBytes, List.mem_cons] at hb
    rcases hb with hb | hb
    · subst hb
      exact Nat.div_lt_of_lt_mul (by rw [pow_succ] at h; exact h)
    · exact ih _ (Nat.mod_lt _ (Nat.pos_pow_of_pos w (by omega))) b hb

theorem leVal_leBytes (w n : Nat) (h : n < 256 ^ w) :
    leVal (leBytes w n) = n := by
  induction w generalizing n with
  | zero => simp [leBytes, leVal]; omega
  | succ w ih =>
    have hd : n / 256 < 256 ^ w := Nat.div_lt_of_lt_mul (by rw [pow_succ] at h; omega)
    simp [leBytes, leVal, ih _ hd]
    omega

/-- Splitting a product-with-remainder comparison: comparing
`q₁ * c + r₁` with `q₂ * c + r₂` (remainders below `c`) is comparing
`(q₁, r₁)` with `(q₂, r₂)` lexicographically. -/
theorem natOrd_mul_add {c q₁ q₂ r₁ r₂ : Nat} (h₁ : r₁ < c) (h₂ : r₂ < c) :
    natOrd (q₁ * c + r₁) (q₂ * c + r₂) =
      match natOrd q₁ q₂ with
      | .eq => natOrd r₁ r₂
      | o => o := by
  have key : ∀ a b x y : Nat, x < c → a < b → a * c + x < b * c + y := by
    intro a b x y hx hab
    calc a * c + x < a * c + c := by omega
    _ = (a + 1) * c := by ring
    _ ≤ b * c := Nat.mul_le_mul_right c hab
    _ ≤ b * c + y := Nat.le_add_right _ _
  rcases hq : natOrd q₁ q₂ with _ | _ | _
  · exact natOrd_eq_lt.mpr (key _ _ _ _ h₁ (natOrd_eq_lt.mp hq))
  · have hqq : q₁ = q₂ := natOrd_eq_eq.mp hq
    subst hqq
    show natOrd (q₁ * c + r₁) (q₁ * c + r₂) = natOrd r₁ r₂
    rcases hr : natOrd r₁ r₂ with _ | _ | _
    · exact natOrd_eq_lt.mpr (Nat.add_lt_add_left (natOrd_eq_lt.mp hr) _)
    · have hrr : r₁ = r₂ := natOrd_eq_eq.mp hr
      subst hrr
      rw [natOrd_eq_eq.mpr rfl]
    · exact natOrd_eq_gt.mpr (Nat.add_lt_add_left (natOrd_eq_gt.mp hr) _)
  · exact natOrd_eq_gt.mpr (key _ _ _ _ h₂ (natOrd_eq_gt.mp hq))

/-- Lexicographic order on fixed-width big-endian byte strings agrees with
numeric order. -/
theorem lexCompare_beBytes (w a b : Nat) (ha : a < 256 ^ w) (hb : b < 256 ^ w) :
    lexCompare (beBytes w a) (beBytes w b) = natOrd a b := by
  induction w generalizing a b with
  | zero =>
    interval_cases a
    interval_cases b
    rfl
  | succ w ih =>
    have hma : a % 256 ^ w < 256 ^ w := Nat.mod_lt _ (Nat.pos_pow_of_pos w (by omega))
    have hmb : b % 256 ^ w < 256 ^ w := Nat.mod_lt _ (Nat.pos_pow_of_pos w (by omega))
    have ea : a = a / 256 ^ w * 256 ^ w + a % 256 ^ w := (Nat.div_add_mod' _ _).symm
    have eb : b = b / 256 ^ w * 256 ^ w + b % 256 ^ w := (Nat.div_add_mod' _ _).symm
    calc lexCompare (beBytes (w + 1) a) (beBytes (w + 1) b)
        = match natOrd (a / 256 ^ w) (b / 256 ^ w) with
          | .eq => lexCompare (beBytes w (a % 256 ^ w)) (beBytes w (b % 256 ^ w))
          | o => o := rfl
      _ = match natOrd (a / 256 ^ w) (b / 256 ^ w) with
          | .eq => natOrd (a % 256 ^ w) (b % 256 ^ w)
          | o => o := by
            rcases hcase : natOrd (a / 256 ^ w) (b / 256 ^ w) with _ | _ | _ <;>
              simp [hcase, ih _ _ hma hmb]
      _ = natOrd a b := by
            conv_rhs => rw [ea, eb]
            exact (natOrd_mul_add hma hmb).symm

/-! ## `Id` (src/document.rs)

`pub struct Id(uuid::Uuid)`.  A `uuid::Uuid` wraps `[u8; 16]` stored
big-endian; its derived `Ord` (inherited by `Id`'s derived `Ord`) is the
lexicographic order on those bytes, and `as_u128`/`from_u128` convert via
big-endian.  We model an `Id` by the `u128` value of its UUID. -/

structure Id where
  u128 : Nat
deriving DecidableEq, Repr

/-- `impl redb::Value for Id`: `as_bytes` delegates to
`u128::as_bytes(&value.0.as_u128())`, which is `to_le_bytes`. -/
def Id.as_bytes (x : Id) : List Nat := leBytes 16 x.u128

/-- `impl redb::Value for Id`: `from_bytes` is
`Id(Uuid::from_u128(u128::from_bytes(data)))`, i.e. decode little-endian. -/
def Id.from_bytes (data : List Nat) : Id := ⟨leVal data⟩

/-- `impl redb::Value for Id`: `fixed_width()` returns `Some(16)`. -/
def Id.fixed_width : Option Nat := some 16

/-- `impl redb::Key for Id`: `compare` delegates to `u128::compare`,
which decodes both little-endian byte strings and compares the resulting
unsigned 128-bit values numerically. -/
def Id.compare (data1 data2 : List Nat) : Ordering :=
  natOrd (leVal data1) (leVal data2)

/-- Derived `Ord` on `Id`: delegates to `uuid::Uuid`'s derived `Ord`,
the lexicographic order on the UUID's 16 big-endian bytes. -/
def Id.cmp (x y : Id) : Ordering :=
  lexCompare (beBytes 16 x.u128) (beBytes 16 y.u128)

/-! ## Error taxonomy (src/error.rs) -/

/-- A `redb` engine error, kept abstract (only its identity matters). -/
structure RedbError where
  code : Nat
deriving DecidableEq, Repr

/-- A `std::io::Error`, kept abstract. -/
structure IoError where
  code : Nat
deriving DecidableEq, Repr

/-- `pub enum Error` from src/error.rs. -/
inductive Error where
  | redb (e : RedbError)
  | ioErr (e : IoError)
  | poison (msg : String)
  | unknownTableName (name : String)
  | arcReferences (strong : Nat) (weak : Nat)
deriving DecidableEq, Repr

/-- `Error::unknown_table`. -/
def Error.unknown_table (name : String) : Error := .unknownTableName name

/-- `Error::arc_refs`: builds `ArcReferences` from the observed strong and
weak reference counts of the given `Arc`. -/
def Error.arc_refs (strong weak : Nat) : Error := .arcReferences strong weak

/-! ## Database handle (src/database.rs) -/

/-- `pub enum DatabaseLocation`. -/
inductive DatabaseLocation where
  | inMemory
  | filesystem (path : String)
deriving DecidableEq, Repr

/-- `DatabaseLocation::memory`. -/
def DatabaseLocation.memory : DatabaseLocation := .inMemory

/-- `DatabaseLocation::file`. -/
def DatabaseLocation.file (path : String) : DatabaseLocation := .filesystem path

/-- State of a `std::sync::RwLock` guard source: for failure analysis only
poisoning matters — acquisition blocks on contention, it never fails for
any other reason. -/
structure RwLockState where
  poisoned : Bool
deriving DecidableEq, Repr

/-- Which kind of guard a lock acquisition grants. -/
inductive GuardKind where
  | shared
  | exclusive
deriving DecidableEq, Repr

/-- `RwLock::read`: errors (with the poison message) iff the lock is
poisoned, otherwise grants a *shared* guard. -/
def RwLockState.read (l : RwLockState) : Except Error GuardKind :=
  if l.poisoned then .error (.poison "poisoned") else .ok .shared

/-- The `Arc<RwLock<redb::Database>>` held by a handle: the lock state plus
an abstract identifier of the underlying `redb::Database` instance. -/
structure EngineCell where
  lock : RwLockState
  engine : Nat
deriving DecidableEq, Repr

/-- `pub struct Database { database: Arc<RwLock<redb::Database>>, location: DatabaseLocation }`. -/
structure Database where
  database : EngineCell
  location : DatabaseLocation
deriving DecidableEq, Repr

/-- Derived `Clone` on `Database`: clones the `Arc` (same shared engine
instance) and the location. -/
def Database.clone (db : Database) : Database := db

/-- `Database::db`: clones and returns the inner `Arc`. -/
def Database.db (db : Database) : EngineCell := db.database

/-- `Database::open`: `redb::Database::create(path)` may fail — its outcome
is the explicit parameter `create_result`; on success the handle stores the
freshly locked engine and `DatabaseLocation::file(path)`. -/
def Database.«open» (path : String) (create_result : Except RedbError Nat) :
    Except Error Database :=
  match create_result with
  | .error e => .error (.redb e)
  | .ok eng =>
    .ok { database := { lock := { poisoned := false }, engine := eng },
          location := .file path }

/-- `Database::open_in_memory`: builds a `redb` database on an
`InMemoryBackend` (outcome parameter `create_result`) and stores
`DatabaseLocation::memory()`. -/
def Database.open_in_memory (create_result : Except RedbError Nat) :
    Except Error Database :=
  match create_result with
  | .error e => .error (.redb e)
  | .ok eng =>
    .ok { database := { lock := { poisoned := false }, engine := eng },
          location := .memory }

/-- `pub enum Transaction`: `Read(Arc<RwLock<redb::ReadTransaction>>)` or
`Write(Arc<Mutex<redb::WriteTransaction>>)`; the engine transaction itself
is abstracted to an identifier. -/
inductive Transaction where
  | read (txn : Nat)
  | write (txn : Nat)
deriving DecidableEq, Repr

/-- `Transaction::reader`: `db.db().read()?.begin_read()?` — takes a
*shared* guard on the handle-level engine lock, then asks the engine for a
read transaction (outcome parameter `begin_read`, fed the engine id). -/
def Transaction.reader (db : Database) (begin_read : Nat → Except RedbError Nat) :
    Except Error Transaction :=
  match (Database.db db).lock.read with
  | .error e => .error e
  | .ok _ =>
    match begin_read (Database.db db).engine with
    | .error e => .error (.redb e)
    | .ok txn => .ok (.read txn)

/-- `Transaction::writer`: `db.db().read()?.begin_write()?` — also takes a
*shared* guard on the handle-level engine lock (writer exclusivity is the
engine's job), then asks the engine for a write transaction. -/
def Transaction.writer (db : Database) (begin_write : Nat → Except RedbError Nat) :
    Except Error Transaction :=
  match (Database.db db).lock.read with
  | .error e => .error e
  | .ok _ =>
    match begin_write (Database.db db).engine with
    | .error e => .error (.redb e)
    | .ok txn => .ok (.write txn)

/-- `Database::reader`: `Transaction::reader(self.clone())`. -/
def Database.reader (db : Database) (begin_read : Nat → Except RedbError Nat) :
    Except Error Transaction :=
  Transaction.reader (Database.clone db) begin_read

/-- `Database::writer`: `Transaction::writer(self.clone())`. -/
def Database.writer (db : Database) (begin_write : Nat → Except RedbError Nat) :
    Except Error Transaction :=
  Transaction.writer (Database.clone db) begin_write

/-! ## Collection (src/database.rs)

`Collection<T>` carries a `PhantomData<T>`; the static data the code uses
from `T` is `T::index_keys()`, modelled as the explicit field
`index_keys`. -/

/-- `pub struct Collection<T>`. -/
structure Collection where
  database : Database
  collection_name : String
  index_keys : List String
  confirmed_existence : Bool
deriving DecidableEq, Repr

/-- `Collection::new(db, name)`. -/
def Collection.new (db : Database) (name : String) (keys : List String) :
    Collection :=
  { database := db, collection_name := name, index_keys := keys,
    confirmed_existence := false }

/-- `Database::collection::<T>(name)`:
`Collection::<T>::new(self.clone(), name.as_ref().to_string())`. -/
def Database.collection (db : Database) (name : String) (keys : List String) :
    Collection :=
  Collection.new (Database.clone db) name keys

/-- `Collection::name`. -/
def Collection.name (c : Collection) : String := c.collection_name

/-- `Collection::main_table_name`: `format!("collections/{}", self.name())`. -/
def Collection.main_table_name (c : Collection) : String :=
  "collections/" ++ c.name

/-- `Collection::index_table_names`: for each `key` in `T::index_keys()`,
inserts `key ↦ format!("collections/{}/index/{}", self.name(), key)`. -/
def Collection.index_table_names (c : Collection) : List (String × String) :=
  c.index_keys.map fun key => (key, "collections/" ++ c.name ++ "/index/" ++ key)

/-! ## Transaction finalization (modelled from the spec)

The bodies of `Transaction::commit` and `Transaction::abort` are not
present under `src/` — `src/database.rs` only declares the `Transaction`
enum and its constructors, and `src/error.rs` supplies
`Error::ArcReferences` / `Error::arc_refs` for them.  They are therefore
modelled from the spec (§4.2, §8, §9). -/

/-- Modelled from the spec: the state of one write-transaction handle at
finalization time — the observed `Arc` strong/weak reference counts, the
poisoning state of the internal guard, and whether the engine transaction
has been finalized.  `strong ≥ 1` while the caller holds the handle. -/
structure WriteHandle where
  strong : Nat
  weak : Nat
  poisoned : Bool
  finalized : Bool
deriving DecidableEq, Repr

/-- Modelled from the spec (§4.2, §9): `Transaction::commit` attempts to
reclaim sole ownership of the handle; if other strong references exist it
fails with `Error::arc_refs` (reporting the observed strong/weak counts)
and leaves the handle untouched; with exclusive ownership, a poisoned
internal guard fails with the poisoning error; otherwise it delegates to
the engine commit (outcome parameter `engine_commit`), surfacing the
engine's error, and on success the transaction is finalized (consumed). -/
def Transaction.commit (h : WriteHandle) (engine_commit : Except RedbError Unit) :
    Except Error Unit × WriteHandle :=
  if 1 < h.strong then (.error (Error.arc_refs h.strong h.weak), h)
  else if h.poisoned then (.error (.poison "poisoned"), h)
  else
    match engine_commit with
    | .error e => (.error (.redb e), h)
    | .ok _ => (.ok (), { h with finalized := true })

/-- Modelled from the spec (§4.2): `Transaction::abort` — same ownership
precondition as `commit`; on success the engine transaction is aborted
(all its writes discarded) and the handle finalized. -/
def Transaction.abort (h : WriteHandle) (engine_abort : Except RedbError Unit) :
    Except Error Unit × WriteHandle :=
  if 1 < h.strong then (.error (Error.arc_refs h.strong h.weak), h)
  else if h.poisoned then (.error (.poison "poisoned"), h)
  else
    match engine_abort with
    | .error e => (.error (.redb e), h)
    | .ok _ => (.ok (), { h with finalized := true })

/-! ## Base64 (URL-safe alphabet, no padding)

`BASE64_URL_SAFE_NO_PAD` from the `base64` crate, as used by
`Document::serialized_indices`.  Characters are modelled by their ASCII
codes; `'='` is code 61. -/

/-- The URL-safe alphabet: 6-bit group → ASCII code
(`A–Z`, `a–z`, `0–9`, `-`, `_`). -/
def b64Char (n : Nat) : Nat :=
  if n < 26 then 65 + n
  else if n < 52 then 97 + (n - 26)
  else if n < 62 then 48 + (n - 52)
  else if n = 62 then 45
  else 95

/-- Inverse of the URL-safe alphabet. -/
def b64DecChar (c : Nat) : Option Nat :=
  if 65 ≤ c ∧ c ≤ 90 then some (c - 65)
  else if 97 ≤ c ∧ c ≤ 122 then some (c - 97 + 26)
  else if 48 ≤ c ∧ c ≤ 57 then some (c - 48 + 52)
  else if c = 45 then some 62
  else if c = 95 then some 63
  else none

/-- `Engine::encode` with the URL-safe no-pad configuration: bytes are
taken three at a time into four alphabet characters; a final chunk of one
byte yields two characters and a final chunk of two bytes yields three —
never a padding character. -/
def b64Encode : List Nat → List Nat
  | [] => []
  | [a] => [b64Char (a / 4), b64Char (a % 4 * 16)]
  | [a, b] => [b64Char (a / 4), b64Char (a % 4 * 16 + b / 16), b64Char (b % 16 * 4)]
  | a :: b :: c :: rest =>
    b64Char (a / 4) :: b64Char (a % 4 * 16 + b / 16) ::
      b64Char (b % 16 * 4 + c / 64) :: b64Char (c % 64) :: b64Encode rest

/-- `Engine::decode` with the URL-safe no-pad configuration: four
characters back to three bytes, a final pair or triple back to one or two
bytes; a lone trailing character or non-zero trailing bits are rejected,
as is any character outside the alphabet. -/
def b64Decode : List Nat → Option (List Nat)
  | [] => some []
  | [_] => none
  | [c₁, c₂] =>
    match b64DecChar c₁, b64DecChar c₂ with
    | some a, some b => if b % 16 = 0 then some [a * 4 + b / 16] else none
    | _, _ => none
  | [c₁, c₂, c₃] =>
    match b64DecChar c₁, b64DecChar c₂, b64DecChar c₃ with
    | some a, some b, some c =>
      if c % 4 = 0 then some [a * 4 + b / 16, b % 16 * 16 + c / 4] else none
    | _, _, _ => none
  | c₁ :: c₂ :: c₃ :: c₄ :: rest =>
    match b64DecChar c₁, b64DecChar c₂, b64DecChar c₃, b64DecChar c₄ with
    | some a, some b, some c, some d =>
      match b64Decode rest with
      | some bs => some ((a * 4 + b / 16) :: (b % 16 * 16 + c / 4) :: (c % 4 * 64 + d) :: bs)
      | none => none
    | _, _, _, _ => none

theorem b64DecChar_b64Char : ∀ n < 64, b64DecChar (b64Char n) = some n := by
  decide

theorem b64Char_ne_pad (n : Nat) : b64Char n ≠ 61 := by
  unfold b64Char
  split_ifs <;> omega

/-- The encoder never emits the padding character `'='` (code 61). -/
theorem b64Encode_no_pad (bs : List Nat) : 61 ∉ b64Encode bs := by
  match bs with
  | [] => simp [b64Encode]
  | [a] =>
    simp only [b64Encode, List.mem_cons, List.not_mem_nil, or_false]
    push_neg
    exact ⟨(b64Char_ne_pad _).symm, (b64Char_ne_pad _).symm⟩
  | [a, b] =>
    simp only [b64Encode, List.mem_cons, List.not_mem_nil, or_false]
    push_neg
    exact ⟨(b64Char_ne_pad _).symm, (b64Char_ne_pad _).symm, (b64Char_ne_pad _).symm⟩
  | a :: b :: c :: rest =>
    simp only [b64Encode, List.mem_cons]
    push_neg
    exact ⟨(b64Char_ne_pad _).symm, (b64Char_ne_pad _).symm, (b64Char_ne_pad _).symm,
      (b64Char_ne_pad _).symm, b64Encode_no_pad rest⟩

/-- Decoding inverts encoding on byte strings. -/
theorem b64Decode_b64Encode (bs : List Nat) (h : ∀ x ∈ bs, x < 256) :
    b64Decode (b64Encode bs) = some bs := by
  match bs with
  | [] => rfl
  | [a] =>
    have ha : a < 256 := h a (by simp)
    have d₁ := b64DecChar_b64Char (a / 4) (by omega)
    have d₂ := b64DecChar_b64Char (a % 4 * 16) (by omega)
    have h16 : a % 4 * 16 % 16 = 0 := by omega
    have hx : a / 4 * 4 + a % 4 * 16 / 16 = a := by omega
    simp [b64Encode, b64Decode, d₁, d₂, h16, hx]
    omega
  | [a, b] =>
    have ha : a < 256 := h a (by simp)
    have hb : b < 256 := h b (by simp)
    have d₁ := b64DecChar_b64Char (a / 4) (by omega)
    have d₂ := b64DecChar_b64Char (a % 4 * 16 + b / 16) (by omega)
    have d₃ := b64DecChar_b64Char (b % 16 * 4) (by omega)
    have h4 : b % 16 * 4 % 4 = 0 := by omega
    have hx : a / 4 * 4 + (a % 4 * 16 + b / 16) / 16 = a := by omega
    have hy : (a % 4 * 16 + b / 16) % 16 * 16 + b % 16 * 4 / 4 = b := by omega
    simp [b64Encode, b64Decode, d₁, d₂, d₃, h4, hx, hy]
    omega
  | a :: b :: c :: rest =>
    have ha : a < 256 := h a (by simp)
    have hb : b < 256 := h b (by simp)
    have hc : c < 256 := h c (by simp)
    have hrest : ∀ x ∈ rest, x < 256 := fun x hx => h x (by simp [hx])
    have d₁ := b64DecChar_b64Char (a / 4) (by omega)
    have d₂ := b64DecChar_b64Char (a % 4 * 16 + b / 16) (by omega)
    have d₃ := b64DecChar_b64Char (b % 16 * 4 + c / 64) (by omega)
    have d₄ := b64DecChar_b64Char (c % 64) (by omega)
    have ihr := b64Decode_b64Encode rest hrest
    have hx : a / 4 * 4 + (a % 4 * 16 + b / 16) / 16 = a := by omega
    have hy : (a % 4 * 16 + b / 16) % 16 * 16 + (b % 16 * 4 + c / 64) / 4 = b := by
      omega
    have hz : (b % 16 * 4 + c / 64) % 4 * 64 + c % 64 = c := by omega
    simp [b64Encode, b64Decode, d₁, d₂, d₃, d₄, ihr, hx, hy, hz]

/-! ## msgpack values (`rmpv::Value`) and the `rmp` wire format

`Document::serialized_indices` serializes each `rmpv::Value` with
`rmpv::encode::write_value` and base64-encodes the bytes.  `rmpv`
integers are `PosInt(u64)` for `n ≥ 0` and `NegInt(i64)` for `n < 0`
(modelled as one `Int`); floats carry their IEEE-754 bit patterns
(modelled as the raw bit pattern, a `Nat`); strings (`Utf8String`) and
binaries are byte strings; `Ext` carries an `i8` tag and bytes. -/

inductive RmpValue where
  | nil
  | boolean (b : Bool)
  | integer (n : Int)
  | f32 (bits : Nat)
  | f64 (bits : Nat)
  | str (s : List Nat)
  | bin (data : List Nat)
  | array (items : List RmpValue)
  | map (entries : List (RmpValue × RmpValue))
  | ext (ty : Int) (data : List Nat)
deriving Repr

/-- `rmp::encode::write_uint`: the most compact unsigned representation. -/
def encodeUint (v : Nat) : List Nat :=
  if v < 128 then [v]
  else if v < 256 then [0xcc, v]
  else if v < 65536 then 0xcd :: beBytes 2 v
  else if v < 4294967296 then 0xce :: beBytes 4 v
  else 0xcf :: beBytes 8 v

/-- `rmp::encode::write_sint` on a negative argument: the most compact
signed representation (`rmpv` stores non-negative integers as `PosInt`,
so `write_value` reaches only the negative branches). -/
def encodeNegInt (n : Int) : List Nat :=
  if -32 ≤ n then [(256 + n).toNat]
  else if -128 ≤ n then [0xd0, (256 + n).toNat]
  else if -32768 ≤ n then 0xd1 :: beBytes 2 (65536 + n).toNat
  else if -2147483648 ≤ n then 0xd2 :: beBytes 4 (4294967296 + n).toNat
  else 0xd3 :: beBytes 8 (18446744073709551616 + n).toNat

/-- `write_value` on `Value::Integer`: `write_uint` for `PosInt`,
`write_sint` for `NegInt`. -/
def encodeInt (n : Int) : List Nat :=
  if 0 ≤ n then encodeUint n.toNat else encodeNegInt n

/-- `rmp::encode::write_str_len`. -/
def strHeader (len : Nat) : List Nat :=
  if len < 32 then [0xa0 + len]
  else if len < 256 then [0xd9, len]
  else if len < 65536 then 0xda :: beBytes 2 len
  else 0xdb :: beBytes 4 len

/-- `rmp::encode::write_bin_len`. -/
def binHeader (len : Nat) : List Nat :=
  if len < 256 then [0xc4, len]
  else if len < 65536 then 0xc5 :: beBytes 2 len
  else 0xc6 :: beBytes 4 len

/-- `rmp::encode::write_array_len`. -/
def arrayHeader (len : Nat) : List Nat :=
  if len < 16 then [0x90 + len]
  else if len < 65536 then 0xdc :: beBytes 2 len
  else 0xdd :: beBytes 4 len

/-- `rmp::encode::write_map_len`. -/
def mapHeader (len : Nat) : List Nat :=
  if len < 16 then [0x80 + len]
  else if len < 65536 then 0xde :: beBytes 2 len
  else 0xdf :: beBytes 4 len

/-- An `i8` as its two's-complement byte. -/
def i8Byte (ty : Int) : Nat := (ty % 256).toNat

/-- `rmp::encode::write_ext_meta`: fixext markers for the exact lengths
1, 2, 4, 8, 16, otherwise `ext8`/`ext16`/`ext32`; the type tag follows
the length. -/
def extHeader (len : Nat) (ty : Int) : List Nat :=
  if len = 1 then [0xd4, i8Byte ty]
  else if len = 2 then [0xd5, i8Byte ty]
  else if len = 4 then [0xd6, i8Byte ty]
  else if len = 8 then [0xd7, i8Byte ty]
  else if len = 16 then [0xd8, i8Byte ty]
  else if len < 256 then [0xc7, len, i8Byte ty]
  else if len < 65536 then (0xc8 :: beBytes 2 len) ++ [i8Byte ty]
  else (0xc9 :: beBytes 4 len) ++ [i8Byte ty]

mutual

/-- `rmpv::encode::write_value` (the byte string it produces). -/
def encodeValue : RmpValue → List Nat
  | .nil => [0xc0]
  | .boolean false => [0xc2]
  | .boolean true => [0xc3]
  | .integer n => encodeInt n
  | .f32 bits => 0xca :: beBytes 4 bits
  | .f64 bits => 0xcb :: beBytes 8 bits
  | .str s => strHeader s.length ++ s
  | .bin d => binHeader d.length ++ d
  | .array items => arrayHeader items.length ++ encodeList items
  | .map entries => mapHeader entries.length ++ encodeEntries entries
  | .ext ty d => extHeader d.length ty ++ d

/-- The elements of an array, in order. -/
def encodeList : List RmpValue → List Nat
  | [] => []
  | v :: vs => encodeValue v ++ encodeList vs

/-- The key/value pairs of a map, in order. -/
def encodeEntries : List (RmpValue × RmpValue) → List Nat
  | [] => []
  | (k, v) :: rest => encodeValue k ++ encodeValue v ++ encodeEntries rest

end

/-- Take exactly `k` bytes from the input. -/
def readN (k : Nat) (bs : List Nat) : Option (List Nat × List Nat) :=
  if k ≤ bs.length then some (bs.take k, bs.drop k) else none

/-- Read a `k`-byte big-endian unsigned value. -/
def readBE (k : Nat) (bs : List Nat) : Option (Nat × List Nat) :=
  match readN k bs with
  | some (xs, rest) => some (beVal xs, rest)
  | none => none

/-- Two's-complement reading of a `w`-bit value. -/
def toSigned (w : Nat) (u : Nat) : Int :=
  if u < 2 ^ (w - 1) then (u : Int) else (u : Int) - 2 ^ w

/-- `read_value` helper: `len` raw bytes as a string. -/
def readStrData (len : Nat) (bs : List Nat) : Option (RmpValue × List Nat) :=
  match readN len bs with
  | some (s, rest) => some (.str s, rest)
  | none => none

/-- `read_value` helper: str8/16/32 (`k` length bytes, then the data). -/
def readStrSized (k : Nat) (bs : List Nat) : Option (RmpValue × List Nat) :=
  match readBE k bs with
  | some (len, r) => readStrData len r
  | none => none

/-- `read_value` helper: bin8/16/32. -/
def readBinSized (k : Nat) (bs : List Nat) : Option (RmpValue × List Nat) :=
  match readBE k bs with
  | some (len, r) =>
    match readN len r with
    | some (d, rest) => some (.bin d, rest)
    | none => none
  | none => none

/-- `read_value` helper: an ext body — `i8` type tag, then `len` bytes. -/
def readExtData (len : Nat) (bs : List Nat) : Option (RmpValue × List Nat) :=
  match readBE 1 bs with
  | some (t, r) =>
    match readN len r with
    | some (d, rest) => some (.ext (toSigned 8 t) d, rest)
    | none => none
  | none => none

/-- `read_value` helper: ext8/16/32. -/
def readExtSized (k : Nat) (bs : List Nat) : Option (RmpValue × List Nat) :=
  match readBE k bs with
  | some (len, r) => readExtData len r
  | none => none

/-- `read_value` helper: u8/u16/u32/u64 (`k` payload bytes). -/
def readUintSized (k : Nat) (bs : List Nat) : Option (RmpValue × List Nat) :=
  match readBE k bs with
  | some (u, rest) => some (.integer u, rest)
  | none => none

/-- `read_value` helper: i8/i16/i32/i64 (`k` payload bytes, two's
complement). -/
def readSintSized (k : Nat) (bs : List Nat) : Option (RmpValue × List Nat) :=
  match readBE k bs with
  | some (u, rest) => some (.integer (toSigned (8 * k) u), rest)
  | none => none

set_option maxRecDepth 4000

mutual

/-- `rmpv::decode::read_value`, with an explicit `fuel` bound on the
nesting depth of the Rust recursion; `none` models a read/parse error
(and fuel exhaustion, which a sufficient fuel never reaches).  Returns
the decoded value and the remaining input. -/
def decodeValue : Nat → List Nat → Option (RmpValue × List Nat)
  | 0, _ => none
  | _ + 1, [] => none
  | fuel + 1, b :: bs =>
    if b < 0x80 then some (.integer b, bs)
    else if b < 0x90 then
      match decodeEntries fuel (b - 0x80) bs with
      | some (es, rest) => some (.map es, rest)
      | none => none
    else if b < 0xa0 then
      match decodeList fuel (b - 0x90) bs with
      | some (vs, rest) => some (.array vs, rest)
      | none => none
    else if b < 0xc0 then readStrData (b - 0xa0) bs
    else if b = 0xc0 then some (.nil, bs)
    else if b = 0xc1 then none
    else if b = 0xc2 then some (.boolean false, bs)
    else if b = 0xc3 then some (.boolean true, bs)
    else if b = 0xc4 then readBinSized 1 bs
    else if b = 0xc5 then readBinSized 2 bs
    else if b = 0xc6 then readBinSized 4 bs
    else if b = 0xc7 then readExtSized 1 bs
    else if b = 0xc8 then readExtSized 2 bs
    else if b = 0xc9 then readExtSized 4 bs
    else if b = 0xca then
      match readBE 4 bs with
      | some (u, rest) => some (.f32 u, rest)
      | none => none
    else if b = 0xcb then
      match readBE 8 bs with
      | some (u, rest) => some (.f64 u, rest)
      | none => none
    else if b = 0xcc then readUintSized 1 bs
    else if b = 0xcd then readUintSized 2 bs
    else if b = 0xce then readUintSized 4 bs
    else if b = 0xcf then readUintSized 8 bs
    else if b = 0xd0 then readSintSized 1 bs
    else if b = 0xd1 then readSintSized 2 bs
    else if b = 0xd2 then readSintSized 4 bs
    else if b = 0xd3 then readSintSized 8 bs
    else if b = 0xd4 then readExtData 1 bs
    else if b = 0xd5 then readExtData 2 bs
    else if b = 0xd6 then readExtData 4 bs
    else if b = 0xd7 then readExtData 8 bs
    else if b = 0xd8 then readExtData 16 bs
    else if b = 0xd9 then readStrSized 1 bs
    else if b = 0xda then readStrSized 2 bs
    else if b = 0xdb then readStrSized 4 bs
    else if b = 0xdc then
      match readBE 2 bs with
      | some (n, r) =>
        match decodeList fuel n r with
        | some (vs, rest) => some (.array vs, rest)
        | none => none
      | none => none
    else if b = 0xdd then
      match readBE 4 bs with
      | some (n, r) =>
        match decodeList fuel n r with
        | some (vs, rest) => some (.array vs, rest)
        | none => none
      | none => none
    else if b = 0xde then
      match readBE 2 bs with
      | some (n, r) =>
        match decodeEntries fuel n r with
        | some (es, rest) => some (.map es, rest)
        | none => none
      | none => none
    else if b = 0xdf then
      match readBE 4 bs with
      | some (n, r) =>
        match decodeEntries fuel n r with
        | some (es, rest) => some (.map es, rest)
        | none => none
      | none => none
    else some (.integer ((b : Int) - 256), bs)
termination_by fuel bs => (fuel, 0)

/-- Decode `n` consecutive values (the elements of an array). -/
def decodeList : Nat → Nat → List Nat → Option (List RmpValue × List Nat)
  | _, 0, bs => some ([], bs)
  | fuel, n + 1, bs =>
    match decodeValue fuel bs with
    | some (v, r) =>
      match decodeList fuel n r with
      | some (vs, rest) => some (v :: vs, rest)
      | none => none
    | none => none
termination_by fuel n bs => (fuel, n + 1)

/-- Decode `n` consecutive key/value pairs (the entries of a map). -/
def decodeEntries : Nat → Nat → List Nat → Option (List (RmpValue × RmpValue) × List Nat)
  | _, 0, bs => some ([], bs)
  | fuel, n + 1, bs =>
    match decodeValue fuel bs with
    | some (k, r) =>
      match decodeValue fuel r with
      | some (v, r₂) =>
        match decodeEntries fuel n r₂ with
        | some (es, rest) => some ((k, v) :: es, rest)
        | none => none
      | none => none
    | none => none
termination_by fuel n bs => (fuel, n + 1)

end

mutual

/-- Nesting depth of a value: the recursion depth `read_value` needs. -/
def depthV : RmpValue → Nat
  | .array items => depthL items + 1
  | .map entries => depthE entries + 1
  | _ => 1

/-- Greatest depth among array elements. -/
def depthL : List RmpValue → Nat
  | [] => 0
  | v :: vs => max (depthV v) (depthL vs)

/-- Greatest depth among map entries. -/
def depthE : List (RmpValue × RmpValue) → Nat
  | [] => 0
  | (k, v) :: rest => max (max (depthV k) (depthV v)) (depthE rest)

end

mutual

/-- Representability in the Rust types: integers fit `PosInt(u64)` /
`NegInt(i64)`, float payloads fit their bit width, byte strings hold
bytes and their lengths fit the `u32` length fields, ext tags fit `i8`. -/
def wfV : RmpValue → Bool
  | .nil => true
  | .boolean _ => true
  | .integer n => decide (-(2 ^ 63 : Int) ≤ n ∧ n < 2 ^ 64)
  | .f32 bits => decide (bits < 2 ^ 32)
  | .f64 bits => decide (bits < 2 ^ 64)
  | .str s => s.all (· < 256) && decide (s.length < 2 ^ 32)
  | .bin d => d.all (· < 256) && decide (d.length < 2 ^ 32)
  | .array items => decide (items.length < 2 ^ 32) && wfL items
  | .map entries => decide (entries.length < 2 ^ 32) && wfE entries
  | .ext ty d =>
    decide (-128 ≤ ty ∧ ty < 128) && (d.all (· < 256) && decide (d.length < 2 ^ 32))

/-- All array elements representable. -/
def wfL : List RmpValue → Bool
  | [] => true
  | v :: vs => wfV v && wfL vs

/-- All map entries representable. -/
def wfE : List (RmpValue × RmpValue) → Bool
  | [] => true
  | (k, v) :: rest => wfV k && (wfV v && wfE rest)

end

/-! ### Logical equality (`PartialEq` on `rmpv::Value`)

The derived `PartialEq` is structural except on `F32`/`F64`, where it is
IEEE-754 `==` on the payloads: `+0.0 == -0.0` even though their bit
patterns differ, and `NaN != NaN`. -/

/-- An f32 bit pattern is a NaN: exponent all ones, fraction non-zero. -/
def f32IsNaN (b : Nat) : Bool := decide (b / 2 ^ 23 % 2 ^ 8 = 255 ∧ b % 2 ^ 23 ≠ 0)

/-- An f64 bit pattern is a NaN. -/
def f64IsNaN (b : Nat) : Bool := decide (b / 2 ^ 52 % 2 ^ 11 = 2047 ∧ b % 2 ^ 52 ≠ 0)

/-- IEEE-754 `==` on f32 bit patterns. -/
def f32Eq (a b : Nat) : Bool :=
  !f32IsNaN a && !f32IsNaN b && (a == b || (a % 2 ^ 31 == 0 && b % 2 ^ 31 == 0))

/-- IEEE-754 `==` on f64 bit patterns. -/
def f64Eq (a b : Nat) : Bool :=
  !f64IsNaN a && !f64IsNaN b && (a == b || (a % 2 ^ 63 == 0 && b % 2 ^ 63 == 0))

mutual

/-- Derived `PartialEq` on `rmpv::Value` ("logical equality"). -/
def logicalEqV : RmpValue → RmpValue → Bool
  | .nil, .nil => true
  | .boolean a, .boolean b => a == b
  | .integer a, .integer b => a == b
  | .f32 a, .f32 b => f32Eq a b
  | .f64 a, .f64 b => f64Eq a b
  | .str a, .str b => a == b
  | .bin a, .bin b => a == b
  | .array a, .array b => logicalEqL a b
  | .map a, .map b => logicalEqE a b
  | .ext t₁ d₁, .ext t₂ d₂ => t₁ == t₂ && d₁ == d₂
  | _, _ => false

/-- Element-wise logical equality of arrays. -/
def logicalEqL : List RmpValue → List RmpValue → Bool
  | [], [] => true
  | a :: as', b :: bs' => logicalEqV a b && logicalEqL as' bs'
  | _, _ => false

/-- Entry-wise logical equality of maps. -/
def logicalEqE : List (RmpValue × RmpValue) → List (RmpValue × RmpValue) → Bool
  | [], [] => true
  | (k₁, v₁) :: r₁, (k₂, v₂) :: r₂ =>
    logicalEqV k₁ k₂ && (logicalEqV v₁ v₂ && logicalEqE r₁ r₂)
  | _, _ => false

end

/-! ### The full index encoding

Per entry of `Document::serialized_indices`: msgpack-serialize with
`rmpv::encode::write_value`, then `BASE64_URL_SAFE_NO_PAD.encode`. -/

/-- The encoding `serialized_indices` applies to one index value. -/
def encodeIndexValue (v : RmpValue) : List Nat := b64Encode (encodeValue v)

/-- The reverse direction: base64-decode, then `read_value` (fuel larger
than the input length is always sufficient). -/
def decodeIndexValue (s : List Nat) : Option RmpValue :=
  match b64Decode s with
  | some bs =>
    match decodeValue (bs.length + 1) bs with
    | some (v, _) => some v
    | none => none
  | none => none

/-! ## `Document::serialized_indices` (src/document.rs)

`rmpv::encode::write_value(&mut writer, &val).unwrap()` writes into a
fresh `Vec<u8>`; `impl io::Write for Vec<u8>` never fails, which is what
makes the `.unwrap()` safe.  We keep the writer's fallibility explicit:
every byte emission goes through `vecWrite` and any writer error aborts
the serialization (`Option.none` at the top level models a panic of the
`.unwrap()`). -/

/-- `impl io::Write for Vec<u8>`: appending to an in-memory vector always
succeeds. -/
def vecWrite (buf bytes : List Nat) : Except String (List Nat) := .ok (buf ++ bytes)

mutual

/-- `rmpv::encode::write_value` against a `Vec<u8>` writer, fallibility
kept explicit. -/
def writeValue : RmpValue → List Nat → Except String (List Nat)
  | .nil, buf => vecWrite buf [0xc0]
  | .boolean false, buf => vecWrite buf [0xc2]
  | .boolean true, buf => vecWrite buf [0xc3]
  | .integer n, buf => vecWrite buf (encodeInt n)
  | .f32 bits, buf => vecWrite buf (0xca :: beBytes 4 bits)
  | .f64 bits, buf => vecWrite buf (0xcb :: beBytes 8 bits)
  | .str s, buf =>
    match vecWrite buf (strHeader s.length) with
    | .error e => .error e
    | .ok buf₂ => vecWrite buf₂ s
  | .bin d, buf =>
    match vecWrite buf (binHeader d.length) with
    | .error e => .error e
    | .ok buf₂ => vecWrite buf₂ d
  | .array items, buf =>
    match vecWrite buf (arrayHeader items.length) with
    | .error e => .error e
    | .ok buf₂ => writeList items buf₂
  | .map entries, buf =>
    match vecWrite buf (mapHeader entries.length) with
    | .error e => .error e
    | .ok buf₂ => writeEntries entries buf₂
  | .ext ty d, buf =>
    match vecWrite buf (extHeader d.length ty) with
    | .error e => .error e
    | .ok buf₂ => vecWrite buf₂ d

/-- Write the elements of an array in order. -/
def writeList : List RmpValue → List Nat → Except String (List Nat)
  | [], buf => .ok buf
  | v :: vs, buf =>
    match writeValue v buf with
    | .error e => .error e
    | .ok buf₂ => writeList vs buf₂

/-- Write the entries of a map in order. -/
def writeEntries : List (RmpValue × RmpValue) → List Nat → Except String (List Nat)
  | [], buf => .ok buf
  | (k, v) :: rest, buf =>
    match writeValue k buf with
    | .error e => .error e
    | .ok buf₂ =>
      match writeValue v buf₂ with
      | .error e => .error e
      | .ok buf₃ => writeEntries rest buf₃

end

/-- The `Document` trait: `index_keys()` is static data of the type,
`index_vals()` is per-instance data; both are modelled as fields of the
one instance under consideration (`id`, `id_field` and serde bodies play
no role in the claims). -/
structure Document where
  index_keys : List String
  index_vals : List (String × RmpValue)

/-- Body of the `for (key, val) in self.index_vals()` loop of
`Document::serialized_indices`: serialize each value into a fresh `Vec`
(a writer failure — the modelled `.unwrap()` panic — aborts with `none`),
base64-encode, and keep it under the same key. -/
def serializeEntriesOf : List (String × RmpValue) → Option (List (String × List Nat))
  | [] => some []
  | (key, val) :: rest =>
    match writeValue val [] with
    | .error _ => none
    | .ok writer =>
      match serializeEntriesOf rest with
      | some out => some ((key, b64Encode writer) :: out)
      | none => none

/-- `Document::serialized_indices`. -/
def Document.serialized_indices (d : Document) : Option (List (String × List Nat)) :=
  serializeEntriesOf d.index_vals

/-! ## Round-trip of the msgpack codec -/

theorem readN_of_length {k : Nat} (xs rest : List Nat) (h : xs.length = k) :
    readN k (xs ++ rest) = some (xs, rest) := by
  subst h
  rw [readN, if_pos (by simp), List.take_left, List.drop_left]

theorem readBE_one (x : Nat) (r : List Nat) : readBE 1 (x :: r) = some (x, r) := by
  have h₁ : readN 1 (x :: r) = some ([x], r) := readN_of_length [x] r rfl
  simp [readBE, h₁, beVal]

theorem readBE_beBytes {k n : Nat} (h : n < 256 ^ k) (rest : List Nat) :
    readBE k (beBytes k n ++ rest) = some (n, rest) := by
  rw [readBE, readN_of_length _ _ (beBytes_length k n)]
  simp [beVal_beBytes _ _ h]

/-! ### One reduction lemma per marker byte -/

theorem decodeValue_fixint {b : Nat} (h : b < 128) (fuel : Nat) (bs : List Nat) :
    decodeValue (fuel + 1) (b :: bs) = some (.integer b, bs) := by
  simp only [decodeValue]
  rw [if_pos h]

theorem decodeValue_negfixint {b : Nat} (h₁ : 0xe0 ≤ b) (h₂ : b ≤ 0xff)
    (fuel : Nat) (bs : List Nat) :
    decodeValue (fuel + 1) (b :: bs) = some (.integer ((b : Int) - 256), bs) := by
  interval_cases b <;> simp [decodeValue]

theorem decodeValue_fixmap {n : Nat} (h : n < 16) (fuel : Nat) (bs : List Nat) :
    decodeValue (fuel + 1) ((0x80 + n) :: bs) =
      match decodeEntries fuel n bs with
      | some (es, rest) => some (.map es, rest)
      | none => none := by
  simp only [decodeValue]
  rw [if_neg (by omega), if_pos (by omega)]
  simp

theorem decodeValue_fixarray {n : Nat} (h : n < 16) (fuel : Nat) (bs : List Nat) :
    decodeValue (fuel + 1) ((0x90 + n) :: bs) =
      match decodeList fuel n bs with
      | some (vs, rest) => some (.array vs, rest)
      | none => none := by
  simp only [decodeValue]
  rw [if_neg (by omega), if_neg (by omega), if_pos (by omega)]
  simp

theorem decodeValue_fixstr {len : Nat} (h : len < 32) (fuel : Nat) (bs : List Nat) :
    decodeValue (fuel + 1) ((0xa0 + len) :: bs) = readStrData len bs := by
  simp only [decodeValue]
  rw [if_neg (by omega), if_neg (by omega), if_neg (by omega), if_pos (by omega)]
  simp

theorem decodeValue_c0 (fuel : Nat) (bs : List Nat) :
    decodeValue (fuel + 1) (0xc0 :: bs) = some (.nil, bs) := by
  simp [decodeValue]

theorem decodeValue_c2 (fuel : Nat) (bs : List Nat) :
    decodeValue (fuel + 1) (0xc2 :: bs) = some (.boolean false, bs) := by
  simp [decodeValue]

theorem decodeValue_c3 (fuel : Nat) (bs : List Nat) :
    decodeValue (fuel + 1) (0xc3 :: bs) = some (.boolean true, bs) := by
  simp [decodeValue]

theorem decodeValue_c4 (fuel : Nat) (bs : List Nat) :
    decodeValue (fuel + 1) (0xc4 :: bs) = readBinSized 1 bs := by
  simp [decodeValue]

theorem decodeValue_c5 (fuel : Nat) (bs : List Nat) :
    decodeValue (fuel + 1) (0xc5 :: bs) = readBinSized 2 bs := by
  simp [decodeValue]

theorem decodeValue_c6 (fuel : Nat) (bs : List Nat) :
    decodeValue (fuel + 1) (0xc6 :: bs) = readBinSized 4 bs := by
  simp [decodeValue]

theorem decodeValue_c7 (fuel : Nat) (bs : List Nat) :
    decodeValue (fuel + 1) (0xc7 :: bs) = readExtSized 1 bs := by
  simp [decodeValue]

theorem decodeValue_c8 (fuel : Nat) (bs : List Nat) :
    decodeValue (fuel + 1) (0xc8 :: bs) = readExtSized 2 bs := by
  simp [decodeValue]

theorem decodeValue_c9 (fuel : Nat) (bs : List Nat) :
    decodeValue (fuel + 1) (0xc9 :: bs) = readExtSized 4 bs := by
  simp [decodeValue]

theorem decodeValue_ca (fuel : Nat) (bs : List Nat) :
    decodeValue (fuel + 1) (0xca :: bs) =
      match readBE 4 bs with
      | some (u, rest) => some (.f32 u, rest)
      | none => none := by
  simp [decodeValue]

theorem decodeValue_cb (fuel : Nat) (bs : List Nat) :
    decodeValue (fuel + 1) (0xcb :: bs) =
      match readBE 8 bs with
      | some (u, rest) => some (.f64 u, rest)
      | none => none := by
  simp [decodeValue]

theorem decodeValue_cc (fuel : Nat) (bs : List Nat) :
    decodeValue (fuel + 1) (0xcc :: bs) = readUintSized 1 bs := by
  simp [decodeValue]

theorem decodeValue_cd (fuel : Nat) (bs : List Nat) :
    decodeValue (fuel + 1) (0xcd :: bs) = readUintSized 2 bs := by
  simp [decodeValue]

theorem decodeValue_ce (fuel : Nat) (bs : List Nat) :
    decodeValue (fuel + 1) (0xce :: bs) = readUintSized 4 bs := by
  simp [decodeValue]

theorem decodeValue_cf (fuel : Nat) (bs : List Nat) :
    decodeValue (fuel + 1) (0xcf :: bs) = readUintSized 8 bs := by
  simp [decodeValue]

theorem decodeValue_d0 (fuel : Nat) (bs : List Nat) :
    decodeValue (fuel + 1) (0xd0 :: bs) = readSintSized 1 bs := by
  simp [decodeValue]

theorem decodeValue_d1 (fuel : Nat) (bs : List Nat) :
    decodeValue (fuel + 1) (0xd1 :: bs) = readSintSized 2 bs := by
  simp [decodeValue]

theorem decodeValue_d2 (fuel : Nat) (bs : List Nat) :
    decodeValue (fuel + 1) (0xd2 :: bs) = readSintSized 4 bs := by
  simp [decodeValue]

theorem decodeValue_d3 (fuel : Nat) (bs : List Nat) :
    decodeValue (fuel + 1) (0xd3 :: bs) = readSintSized 8 bs := by
  simp [decodeValue]

theorem decodeValue_d4 (fuel : Nat) (bs : List Nat) :
    decodeValue (fuel + 1) (0xd4 :: bs) = readExtData 1 bs := by
  simp [decodeValue]

theorem decodeValue_d5 (fuel : Nat) (bs : List Nat) :
    decodeValue (fuel + 1) (0xd5 :: bs) = readExtData 2 bs := by
  simp [decodeValue]

theorem decodeValue_d6 (fuel : Nat) (bs : List Nat) :
    decodeValue (fuel + 1) (0xd6 :: bs) = readExtData 4 bs := by
  simp [decodeValue]

theorem decodeValue_d7 (fuel : Nat) (bs : List Nat) :
    decodeValue (fuel + 1) (0xd7 :: bs) = readExtData 8 bs := by
  simp [decodeValue]

theorem decodeValue_d8 (fuel : Nat) (bs : List Nat) :
    decodeValue (fuel + 1) (0xd8 :: bs) = readExtData 16 bs := by
  simp [decodeValue]

theorem decodeValue_d9 (fuel : Nat) (bs : List Nat) :
    decodeValue (fuel + 1) (0xd9 :: bs) = readStrSized 1 bs := by
  simp [decodeValue]

theorem decodeValue_da (fuel : Nat) (bs : List Nat) :
    decodeValue (fuel + 1) (0xda :: bs) = readStrSized 2 bs := by
  simp [decodeValue]

theorem decodeValue_db (fuel : Nat) (bs : List Nat) :
    decodeValue (fuel + 1) (0xdb :: bs) = readStrSized 4 bs := by
  simp [decodeValue]

theorem decodeValue_dc (fuel : Nat) (bs : List Nat) :
    decodeValue (fuel + 1) (0xdc :: bs) =
      match readBE 2 bs with
      | some (n, r) =>
        match decodeList fuel n r with
        | some (vs, rest) => some (.array vs, rest)
        | none => none
      | none => none := by
  simp [decodeValue]

theorem decodeValue_dd (fuel : Nat) (bs : List Nat) :
    decodeValue (fuel + 1) (0xdd :: bs) =
      match readBE 4 bs with
      | some (n, r) =>
        match decodeList fuel n r with
        | some (vs, rest) => some (.array vs, rest)
        | none => none
      | none => none := by
  simp [decodeValue]

theorem decodeValue_de (fuel : Nat) (bs : List Nat) :
    decodeValue (fuel + 1) (0xde :: bs) =
      match readBE 2 bs with
      | some (n, r) =>
        match decodeEntries fuel n r with
        | some (es, rest) => some (.map es, rest)
        | none => none
      | none => none := by
  simp [decodeValue]

theorem decodeValue_df (fuel : Nat) (bs : List Nat) :
    decodeValue (fuel + 1) (0xdf :: bs) =
      match readBE 4 bs with
      | some (n, r) =>
        match decodeEntries fuel n r with
        | some (es, rest) => some (.map es, rest)
        | none => none
      | none => none := by
  simp [decodeValue]

/-! ### Per-construct round-trip lemmas -/

theorem toSigned8_neg {n : Int} (h₁ : -128 ≤ n) (h₂ : n < 0) :
    toSigned 8 ((256 + n).toNat) = n := by
  rw [toSigned, if_neg (by omega)]
  omega

theorem toSigned16_neg {n : Int} (h₁ : -32768 ≤ n) (h₂ : n < 0) :
    toSigned 16 ((65536 + n).toNat) = n := by
  rw [toSigned, if_neg (by omega)]
  omega

theorem toSigned32_neg {n : Int} (h₁ : -2147483648 ≤ n) (h₂ : n < 0) :
    toSigned 32 ((4294967296 + n).toNat) = n := by
  rw [toSigned, if_neg (by omega)]
  omega

theorem toSigned64_neg {n : Int} (h₁ : -9223372036854775808 ≤ n) (h₂ : n < 0) :
    toSigned 64 ((18446744073709551616 + n).toNat) = n := by
  rw [toSigned, if_neg (by omega)]
  omega

theorem toSigned_i8Byte {ty : Int} (h₁ : -128 ≤ ty) (h₂ : ty < 128) :
    toSigned 8 (i8Byte ty) = ty := by
  unfold i8Byte
  rcases le_or_lt 0 ty with hpos | hneg
  · rw [toSigned, if_pos (by omega)]
    omega
  · rw [toSigned, if_neg (by omega)]
    omega

theorem decodeValue_encodeInt {n : Int} (h₁ : -9223372036854775808 ≤ n)
    (h₂ : n < 18446744073709551616) (fuel : Nat) (rest : List Nat) :
    decodeValue (fuel + 1) (encodeInt n ++ rest) = some (.integer n, rest) := by
  unfold encodeInt encodeUint encodeNegInt
  split_ifs with hpos hu₁ hu₂ hu₃ hu₄ hn₁ hn₂ hn₃ hn₄
  · simp only [List.cons_append, List.nil_append]
    rw [decodeValue_fixint hu₁]
    simp [Int.toNat_of_nonneg hpos]
  · simp only [List.cons_append, List.nil_append]
    rw [decodeValue_cc, readUintSized, readBE_one]
    simp [Int.toNat_of_nonneg hpos]
  · simp only [List.cons_append]
    rw [decodeValue_cd, readUintSized,
      readBE_beBytes (lt_of_lt_of_le hu₃ (by norm_num))]
    simp [Int.toNat_of_nonneg hpos]
  · simp only [List.cons_append]
    rw [decodeValue_ce, readUintSized,
      readBE_beBytes (lt_of_lt_of_le hu₄ (by norm_num))]
    simp [Int.toNat_of_nonneg hpos]
  · simp only [List.cons_append]
    rw [decodeValue_cf, readUintSized,
      readBE_beBytes (lt_of_lt_of_le (show n.toNat < 18446744073709551616 by omega)
        (by norm_num))]
    simp [Int.toNat_of_nonneg hpos]
  · simp only [List.cons_append, List.nil_append]
    rw [decodeValue_negfixint (by omega) (by omega)]
    simp only [Option.some.injEq, Prod.mk.injEq, RmpValue.integer.injEq]
    exact ⟨by omega, trivial⟩
  · simp only [List.cons_append, List.nil_append]
    rw [decodeValue_d0, readSintSized, readBE_one]
    simp [toSigned8_neg hn₂ (by omega)]
  · simp only [List.cons_append]
    rw [decodeValue_d1, readSintSized,
      readBE_beBytes (lt_of_lt_of_le (show (65536 + n).toNat < 65536 by omega)
        (by norm_num))]
    simp [show (8 : Nat) * 2 = 16 by norm_num, toSigned16_neg hn₃ (by omega)]
  · simp only [List.cons_append]
    rw [decodeValue_d2, readSintSized,
      readBE_beBytes (lt_of_lt_of_le (show (4294967296 + n).toNat < 4294967296 by omega)
        (by norm_num))]
    simp [show (8 : Nat) * 4 = 32 by norm_num, toSigned32_neg hn₄ (by omega)]
  · simp only [List.cons_append]
    rw [decodeValue_d3, readSintSized,
      readBE_beBytes
        (lt_of_lt_of_le (show (18446744073709551616 + n).toNat < 18446744073709551616 by omega)
        (by norm_num))]
    simp [show (8 : Nat) * 8 = 64 by norm_num, toSigned64_neg h₁ (by omega)]

theorem decodeValue_str {s : List Nat} (h : s.length < 4294967296)
    (fuel : Nat) (rest : List Nat) :
    decodeValue (fuel + 1) ((strHeader s.length ++ s) ++ rest) = some (.str s, rest) := by
  have hd : readStrData s.length (s ++ rest) = some (.str s, rest) := by
    rw [readStrData, readN_of_length _ _ rfl]
  unfold strHeader
  split_ifs with h₁ h₂ h₃
  · simp only [List.cons_append, List.nil_append]
    rw [decodeValue_fixstr h₁]
    exact hd
  · simp only [List.cons_append, List.nil_append]
    rw [decodeValue_d9, readStrSized, readBE_one]
    exact hd
  · simp only [List.cons_append, List.append_assoc]
    rw [decodeValue_da, readStrSized,
      readBE_beBytes (lt_of_lt_of_le h₃ (by norm_num))]
    exact hd
  · simp only [List.cons_append, List.append_assoc]
    rw [decodeValue_db, readStrSized,
      readBE_beBytes (lt_of_lt_of_le h (by norm_num))]
    exact hd

theorem decodeValue_bin {d : List Nat} (h : d.length < 4294967296)
    (fuel : Nat) (rest : List Nat) :
    decodeValue (fuel + 1) ((binHeader d.length ++ d) ++ rest) = some (.bin d, rest) := by
  unfold binHeader
  split_ifs with h₁ h₂
  · simp only [List.cons_append, List.nil_append]
    rw [decodeValue_c4, readBinSized, readBE_one]
    simp [readN_of_length d rest rfl]
  · simp only [List.cons_append, List.append_assoc]
    rw [decodeValue_c5, readBinSized,
      readBE_beBytes (lt_of_lt_of_le h₂ (by norm_num))]
    simp [readN_of_length d rest rfl]
  · simp only [List.cons_append, List.append_assoc]
    rw [decodeValue_c6, readBinSized,
      readBE_beBytes (lt_of_lt_of_le h (by norm_num))]
    simp [readN_of_length d rest rfl]

theorem decodeValue_ext {d : List Nat} {ty : Int} (hl : d.length < 4294967296)
    (h₁ : -128 ≤ ty) (h₂ : ty < 128) (fuel : Nat) (rest : List Nat) :
    decodeValue (fuel + 1) ((extHeader d.length ty ++ d) ++ rest) = some (.ext ty d, rest) := by
  have hdata : readExtData d.length (i8Byte ty :: (d ++ rest)) = some (.ext ty d, rest) := by
    rw [readExtData, readBE_one]
    simp [readN_of_length d rest rfl, toSigned_i8Byte h₁ h₂]
  unfold extHeader
  split_ifs with e₁ e₂ e₃ e₄ e₅ e₆ e₇
  · simp only [List.cons_append, List.nil_append]
    rw [decodeValue_d4, ← e₁]
    exact hdata
  · simp only [List.cons_append, List.nil_append]
    rw [decodeValue_d5, ← e₂]
    exact hdata
  · simp only [List.cons_append, List.nil_append]
    rw [decodeValue_d6, ← e₃]
    exact hdata
  · simp only [List.cons_append, List.nil_append]
    rw [decodeValue_d7, ← e₄]
    exact hdata
  · simp only [List.cons_append, List.nil_append]
    rw [decodeValue_d8, ← e₅]
    exact hdata
  · simp only [List.cons_append, List.nil_append]
    rw [decodeValue_c7, readExtSized, readBE_one]
    exact hdata
  · simp only [List.cons_append, List.append_assoc, List.singleton_append]
    rw [decodeValue_c8, readExtSized,
      readBE_beBytes (lt_of_lt_of_le e₇ (by norm_num))]
    exact hdata
  · simp only [List.cons_append, List.append_assoc, List.singleton_append]
    rw [decodeValue_c9, readExtSized,
      readBE_beBytes (lt_of_lt_of_le hl (by norm_num))]
    exact hdata

theorem decodeValue_arrayHeader {n : Nat} (h : n < 4294967296) (fuel : Nat)
    (bs : List Nat) :
    decodeValue (fuel + 1) (arrayHeader n ++ bs) =
      match decodeList fuel n bs with
      | some (vs, rest) => some (.array vs, rest)
      | none => none := by
  unfold arrayHeader
  split_ifs with h₁ h₂
  · simp only [List.cons_append, List.nil_append]
    exact decodeValue_fixarray h₁ fuel bs
  · simp only [List.cons_append]
    rw [decodeValue_dc, readBE_beBytes (lt_of_lt_of_le h₂ (by norm_num))]
  · simp only [List.cons_append]
    rw [decodeValue_dd, readBE_beBytes (lt_of_lt_of_le h (by norm_num))]

theorem decodeValue_mapHeader {n : Nat} (h : n < 4294967296) (fuel : Nat)
    (bs : List Nat) :
    decodeValue (fuel + 1) (mapHeader n ++ bs) =
      match decodeEntries fuel n bs with
      | some (es, rest) => some (.map es, rest)
      | none => none := by
  unfold mapHeader
  split_ifs with h₁ h₂
  · simp only [List.cons_append, List.nil_append]
    exact decodeValue_fixmap h₁ fuel bs
  · simp only [List.cons_append]
    rw [decodeValue_de, readBE_beBytes (lt_of_lt_of_le h₂ (by norm_num))]
  · simp only [List.cons_append]
    rw [decodeValue_df, readBE_beBytes (lt_of_lt_of_le h (by norm_num))]

theorem depthV_pos (v : RmpValue) : 1 ≤ depthV v := by
  cases v <;> simp [depthV]

/-! ### The round-trip theorem -/

mutual

theorem roundtripV : ∀ (v : RmpValue) (fuel : Nat) (rest : List Nat),
    wfV v = true → depthV v ≤ fuel →
    decodeValue fuel (encodeValue v ++ rest) = some (v, rest)
  | .nil, fuel, rest, _, hfuel => by
    obtain ⟨f, rfl⟩ : ∃ f, fuel = f + 1 :=
      ⟨fuel - 1, by simp [depthV] at hfuel; omega⟩
    simp only [encodeValue, List.cons_append, List.nil_append]
    exact decodeValue_c0 f rest
  | .boolean false, fuel, rest, _, hfuel => by
    obtain ⟨f, rfl⟩ : ∃ f, fuel = f + 1 :=
      ⟨fuel - 1, by simp [depthV] at hfuel; omega⟩
    simp only [encodeValue, List.cons_append, List.nil_append]
    exact decodeValue_c2 f rest
  | .boolean true, fuel, rest, _, hfuel => by
    obtain ⟨f, rfl⟩ : ∃ f, fuel = f + 1 :=
      ⟨fuel - 1, by simp [depthV] at hfuel; omega⟩
    simp only [encodeValue, List.cons_append, List.nil_append]
    exact decodeValue_c3 f rest
  | .integer n, fuel, rest, hwf, hfuel => by
    obtain ⟨f, rfl⟩ : ∃ f, fuel = f + 1 :=
      ⟨fuel - 1, by simp [depthV] at hfuel; omega⟩
    simp only [wfV, decide_eq_true_eq] at hwf
    simp only [encodeValue]
    exact decodeValue_encodeInt (by omega) (by omega) f rest
  | .f32 bits, fuel, rest, hwf, hfuel => by
    obtain ⟨f, rfl⟩ : ∃ f, fuel = f + 1 :=
      ⟨fuel - 1, by simp [depthV] at hfuel; omega⟩
    simp only [wfV, decide_eq_true_eq] at hwf
    simp only [encodeValue, List.cons_append]
    rw [decodeValue_ca, readBE_beBytes (lt_of_lt_of_le hwf (by norm_num))]
  | .f64 bits, fuel, rest, hwf, hfuel => by
    obtain ⟨f, rfl⟩ : ∃ f, fuel = f + 1 :=
      ⟨fuel - 1, by simp [depthV] at hfuel; omega⟩
    simp only [wfV, decide_eq_true_eq] at hwf
    simp only [encodeValue, List.cons_append]
    rw [decodeValue_cb, readBE_beBytes (lt_of_lt_of_le hwf (by norm_num))]
  | .str s, fuel, rest, hwf, hfuel => by
    obtain ⟨f, rfl⟩ : ∃ f, fuel = f + 1 :=
      ⟨fuel - 1, by simp [depthV] at hfuel; omega⟩
    simp only [wfV, Bool.and_eq_true, decide_eq_true_eq] at hwf
    simp only [encodeValue]
    exact decodeValue_str (by omega) f rest
  | .bin d, fuel, rest, hwf, hfuel => by
    obtain ⟨f, rfl⟩ : ∃ f, fuel = f + 1 :=
      ⟨fuel - 1, by simp [depthV] at hfuel; omega⟩
    simp only [wfV, Bool.and_eq_true, decide_eq_true_eq] at hwf
    simp only [encodeValue]
    exact decodeValue_bin (by omega) f rest
  | .ext ty d, fuel, rest, hwf, hfuel => by
    obtain ⟨f, rfl⟩ : ∃ f, fuel = f + 1 :=
      ⟨fuel - 1, by simp [depthV] at hfuel; omega⟩
    simp only [wfV, Bool.and_eq_true, decide_eq_true_eq] at hwf
    simp only [encodeValue]
    exact decodeValue_ext (by omega) (by omega) (by omega) f rest
  | .array items, fuel, rest, hwf, hfuel => by
    obtain ⟨f, rfl⟩ : ∃ f, fuel = f + 1 :=
      ⟨fuel - 1, by simp [depthV] at hfuel; omega⟩
    simp only [wfV, Bool.and_eq_true, decide_eq_true_eq] at hwf
    simp only [depthV] at hfuel
    have hL := roundtripL items f rest hwf.2 (by omega)
    simp only [encodeValue, List.append_assoc]
    rw [decodeValue_arrayHeader (by omega) f]
    simp [hL]
  | .map entries, fuel, rest, hwf, hfuel => by
    obtain ⟨f, rfl⟩ : ∃ f, fuel = f + 1 :=
      ⟨fuel - 1, by simp [depthV] at hfuel; omega⟩
    simp only [wfV, Bool.and_eq_true, decide_eq_true_eq] at hwf
    simp only [depthV] at hfuel
    have hE := roundtripE entries f rest hwf.2 (by omega)
    simp only [encodeValue, List.append_assoc]
    rw [decodeValue_mapHeader (by omega) f]
    simp [hE]
termination_by v _ _ => sizeOf v

theorem roundtripL : ∀ (items : List RmpValue) (fuel : Nat) (rest : List Nat),
    wfL items = true → depthL items ≤ fuel →
    decodeList fuel items.length (encodeList items ++ rest) = some (items, rest)
  | [], fuel, rest, _, _ => by simp [encodeList, decodeList]
  | v :: vs, fuel, rest, hwf, hfuel => by
    simp only [wfL, Bool.and_eq_true] at hwf
    simp only [depthL, max_le_iff] at hfuel
    have h₁ := roundtripV v fuel (encodeList vs ++ rest) hwf.1 hfuel.1
    have h₂ := roundtripL vs fuel rest hwf.2 hfuel.2
    simp only [encodeList, List.append_assoc, List.length_cons]
    simp [decodeList, h₁, h₂]
termination_by items _ _ => sizeOf items

theorem roundtripE : ∀ (entries : List (RmpValue × RmpValue)) (fuel : Nat) (rest : List Nat),
    wfE entries = true → depthE entries ≤ fuel →
    decodeEntries fuel entries.length (encodeEntries entries ++ rest) = some (entries, rest)
  | [], fuel, rest, _, _ => by simp [encodeEntries, decodeEntries]
  | (k, v) :: rest', fuel, rest, hwf, hfuel => by
    simp only [wfE, Bool.and_eq_true] at hwf
    simp only [depthE, max_le_iff] at hfuel
    have h₁ := roundtripV k fuel (encodeValue v ++ (encodeEntries rest' ++ rest))
      hwf.1 hfuel.1.1
    have h₂ := roundtripV v fuel (encodeEntries rest' ++ rest) hwf.2.1 hfuel.1.2
    have h₃ := roundtripE rest' fuel rest hwf.2.2 hfuel.2
    simp only [encodeEntries, List.append_assoc, List.length_cons]
    simp [decodeEntries, h₁, h₂, h₃]
termination_by entries _ _ => sizeOf entries

end

/-! ### Byte bounds and depth bounds of the encoder -/

theorem i8Byte_lt (ty : Int) : i8Byte ty < 256 := by
  unfold i8Byte
  omega

theorem strHeader_bytes {len : Nat} (h : len < 4294967296) :
    ∀ b ∈ strHeader len, b < 256 := by
  unfold strHeader
  split_ifs with h₁ h₂ h₃ <;> intro b hb
  · simp at hb; omega
  · simp at hb; rcases hb with hb | hb <;> omega
  · simp at hb
    rcases hb with hb | hb
    · omega
    · exact beBytes_lt 2 len (lt_of_lt_of_le h₃ (by norm_num)) b hb
  · simp at hb
    rcases hb with hb | hb
    · omega
    · exact beBytes_lt 4 len (lt_of_lt_of_le h (by norm_num)) b hb

theorem binHeader_bytes {len : Nat} (h : len < 4294967296) :
    ∀ b ∈ binHeader len, b < 256 := by
  unfold binHeader
  split_ifs with h₁ h₂ <;> intro b hb
  · simp at hb; rcases hb with hb | hb <;> omega
  · simp at hb
    rcases hb with hb | hb
    · omega
    · exact beBytes_lt 2 len (lt_of_lt_of_le h₂ (by norm_num)) b hb
  · simp at hb
    rcases hb with hb | hb
    · omega
    · exact beBytes_lt 4 len (lt_of_lt_of_le h (by norm_num)) b hb

theorem arrayHeader_bytes {len : Nat} (h : len < 4294967296) :
    ∀ b ∈ arrayHeader len, b < 256 := by
  unfold arrayHeader
  split_ifs with h₁ h₂ <;> intro b hb
  · simp at hb; omega
  · simp at hb
    rcases hb with hb | hb
    · omega
    · exact beBytes_lt 2 len (lt_of_lt_of_le h₂ (by norm_num)) b hb
  · simp at hb
    rcases hb with hb | hb
    · omega
    · exact beBytes_lt 4 len (lt_of_lt_of_le h (by norm_num)) b hb

theorem mapHeader_bytes {len : Nat} (h : len < 4294967296) :
    ∀ b ∈ mapHeader len, b < 256 := by
  unfold mapHeader
  split_ifs with h₁ h₂ <;> intro b hb
  · simp at hb; omega
  · simp at hb
    rcases hb with hb | hb
    · omega
    · exact beBytes_lt 2 len (lt_of_lt_of_le h₂ (by norm_num)) b hb
  · simp at hb
    rcases hb with hb | hb
    · omega
    · exact beBytes_lt 4 len (lt_of_lt_of_le h (by norm_num)) b hb

theorem extHeader_bytes {len : Nat} {ty : Int} (h : len < 4294967296) :
    ∀ b ∈ extHeader len ty, b < 256 := by
  have hi := i8Byte_lt ty
  unfold extHeader
  split_ifs with e₁ e₂ e₃ e₄ e₅ e₆ e₇ <;> intro b hb
  · simp at hb; rcases hb with hb | hb <;> omega
  · simp at hb; rcases hb with hb | hb <;> omega
  · simp at hb; rcases hb with hb | hb <;> omega
  · simp at hb; rcases hb with hb | hb <;> omega
  · simp at hb; rcases hb with hb | hb <;> omega
  · simp at hb; rcases hb with hb | hb | hb <;> omega
  · simp at hb
    rcases hb with hb | hb | hb
    · omega
    · exact beBytes_lt 2 len (lt_of_lt_of_le e₇ (by norm_num)) b hb
    · omega
  · simp at hb
    rcases hb with hb | hb | hb
    · omega
    · exact beBytes_lt 4 len (lt_of_lt_of_le h (by norm_num)) b hb
    · omega

theorem encodeInt_bytes {n : Int} (h₁ : -9223372036854775808 ≤ n)
    (h₂ : n < 18446744073709551616) :
    ∀ b ∈ encodeInt n, b < 256 := by
  unfold encodeInt encodeUint encodeNegInt
  split_ifs with hpos hu₁ hu₂ hu₃ hu₄ hn₁ hn₂ hn₃ hn₄ <;> intro b hb
  · simp at hb; omega
  · simp at hb; rcases hb with hb | hb <;> omega
  · simp at hb
    rcases hb with hb | hb
    · omega
    · exact beBytes_lt 2 _ (lt_of_lt_of_le hu₃ (by norm_num)) b hb
  · simp at hb
    rcases hb with hb | hb
    · omega
    · exact beBytes_lt 4 _ (lt_of_lt_of_le hu₄ (by norm_num)) b hb
  · simp at hb
    rcases hb with hb | hb
    · omega
    · exact beBytes_lt 8 _
        (lt_of_lt_of_le (show n.toNat < 18446744073709551616 by omega) (by norm_num)) b hb
  · simp at hb; omega
  · simp at hb; rcases hb with hb | hb <;> omega
  · simp at hb
    rcases hb with hb | hb
    · omega
    · exact beBytes_lt 2 _
        (lt_of_lt_of_le (show (65536 + n).toNat < 65536 by omega) (by norm_num)) b hb
  · simp at hb
    rcases hb with hb | hb
    · omega
    · exact beBytes_lt 4 _
        (lt_of_lt_of_le (show (4294967296 + n).toNat < 4294967296 by omega) (by norm_num)) b hb
  · simp at hb
    rcases hb with hb | hb
    · omega
    · exact beBytes_lt 8 _
        (lt_of_lt_of_le (show (18446744073709551616 + n).toNat < 18446744073709551616 by omega)
          (by norm_num)) b hb

mutual

theorem encodeValue_bytes : ∀ v : RmpValue, wfV v = true → ∀ b ∈ encodeValue v, b < 256
  | .nil, _ => by simp [encodeValue]
  | .boolean false, _ => by simp [encodeValue]
  | .boolean true, _ => by simp [encodeValue]
  | .integer n, hwf => by
    simp only [wfV, decide_eq_true_eq] at hwf
    simp only [encodeValue]
    exact encodeInt_bytes (by omega) (by omega)
  | .f32 bits, hwf => by
    simp only [wfV, decide_eq_true_eq] at hwf
    simp only [encodeValue]
    intro b hb
    simp at hb
    rcases hb with hb | hb
    · omega
    · exact beBytes_lt 4 _ (lt_of_lt_of_le hwf (by norm_num)) b hb
  | .f64 bits, hwf => by
    simp only [wfV, decide_eq_true_eq] at hwf
    simp only [encodeValue]
    intro b hb
    simp at hb
    rcases hb with hb | hb
    · omega
    · exact beBytes_lt 8 _ (lt_of_lt_of_le hwf (by norm_num)) b hb
  | .str s, hwf => by
    simp only [wfV, Bool.and_eq_true, List.all_eq_true, decide_eq_true_eq] at hwf
    simp only [encodeValue]
    intro b hb
    rcases List.mem_append.mp hb with hb | hb
    · exact strHeader_bytes (by omega) b hb
    · exact hwf.1 b hb
  | .bin d, hwf => by
    simp only [wfV, Bool.and_eq_true, List.all_eq_true, decide_eq_true_eq] at hwf
    simp only [encodeValue]
    intro b hb
    rcases List.mem_append.mp hb with hb | hb
    · exact binHeader_bytes (by omega) b hb
    · exact hwf.1 b hb
  | .ext ty d, hwf => by
    simp only [wfV, Bool.and_eq_true, List.all_eq_true, decide_eq_true_eq] at hwf
    simp only [encodeValue]
    intro b hb
    rcases List.mem_append.mp hb with hb | hb
    · exact extHeader_bytes (by omega) b hb
    · exact hwf.2.1 b hb
  | .array items, hwf => by
    simp only [wfV, Bool.and_eq_true, decide_eq_true_eq] at hwf
    have hrec := encodeList_bytes items hwf.2
    simp only [encodeValue]
    intro b hb
    rcases List.mem_append.mp hb with hb | hb
    · exact arrayHeader_bytes (by omega) b hb
    · exact hrec b hb
  | .map entries, hwf => by
    simp only [wfV, Bool.and_eq_true, decide_eq_true_eq] at hwf
    have hrec := encodeEntries_bytes entries hwf.2
    simp only [encodeValue]
    intro b hb
    rcases List.mem_append.mp hb with hb | hb
    · exact mapHeader_bytes (by omega) b hb
    · exact hrec b hb
termination_by v _ => sizeOf v

theorem encodeList_bytes : ∀ items : List RmpValue, wfL items = true →
    ∀ b ∈ encodeList items, b < 256
  | [], _ => by simp [encodeList]
  | v :: vs, hwf => by
    simp only [wfL, Bool.and_eq_true] at hwf
    have h₁ := encodeValue_bytes v hwf.1
    have h₂ := encodeList_bytes vs hwf.2
    simp only [encodeList]
    intro b hb
    rcases List.mem_append.mp hb with hb | hb
    · exact h₁ b hb
    · exact h₂ b hb
termination_by items _ => sizeOf items

theorem encodeEntries_bytes : ∀ entries : List (RmpValue × RmpValue), wfE entries = true →
    ∀ b ∈ encodeEntries entries, b < 256
  | [], _ => by simp [encodeEntries]
  | (k, v) :: rest, hwf => by
    simp only [wfE, Bool.and_eq_true] at hwf
    have h₁ := encodeValue_bytes k hwf.1
    have h₂ := encodeValue_bytes v hwf.2.1
    have h₃ := encodeEntries_bytes rest hwf.2.2
    simp only [encodeEntries]
    intro b hb
    simp only [List.mem_append] at hb
    rcases hb with (hb | hb) | hb
    · exact h₁ b hb
    · exact h₂ b hb
    · exact h₃ b hb
termination_by entries _ => sizeOf entries

end

theorem strHeader_length_pos (len : Nat) : 1 ≤ (strHeader len).length := by
  unfold strHeader
  split_ifs <;> simp

theorem binHeader_length_pos (len : Nat) : 1 ≤ (binHeader len).length := by
  unfold binHeader
  split_ifs <;> simp

theorem arrayHeader_length_pos (len : Nat) : 1 ≤ (arrayHeader len).length := by
  unfold arrayHeader
  split_ifs <;> simp

theorem mapHeader_length_pos (len : Nat) : 1 ≤ (mapHeader len).length := by
  unfold mapHeader
  split_ifs <;> simp

theorem extHeader_length_pos (len : Nat) (ty : Int) : 1 ≤ (extHeader len ty).length := by
  unfold extHeader
  split_ifs <;> simp

theorem encodeInt_length_pos (n : Int) : 1 ≤ (encodeInt n).length := by
  unfold encodeInt encodeUint encodeNegInt
  split_ifs <;> simp

mutual

theorem depthV_le_len : ∀ v : RmpValue, depthV v ≤ (encodeValue v).length
  | .nil => by simp [depthV, encodeValue]
  | .boolean b => by cases b <;> simp [depthV, encodeValue]
  | .integer n => by
    have := encodeInt_length_pos n
    simp only [depthV, encodeValue]
    omega
  | .f32 bits => by simp [depthV, encodeValue]
  | .f64 bits => by simp [depthV, encodeValue]
  | .str s => by
    have := strHeader_length_pos s.length
    simp only [depthV, encodeValue, List.length_append]
    omega
  | .bin d => by
    have := binHeader_length_pos d.length
    simp only [depthV, encodeValue, List.length_append]
    omega
  | .ext ty d => by
    have := extHeader_length_pos d.length ty
    simp only [depthV, encodeValue, List.length_append]
    omega
  | .array items => by
    have h := depthL_le_len items
    have hh := arrayHeader_length_pos items.length
    simp only [depthV, encodeValue, List.length_append]
    omega
  | .map entries => by
    have h := depthE_le_len entries
    have hh := mapHeader_length_pos entries.length
    simp only [depthV, encodeValue, List.length_append]
    omega
termination_by v => sizeOf v

theorem depthL_le_len : ∀ items : List RmpValue, depthL items ≤ (encodeList items).length
  | [] => by simp [depthL, encodeList]
  | v :: vs => by
    have h₁ := depthV_le_len v
    have h₂ := depthL_le_len vs
    simp only [depthL, encodeList, List.length_append, max_le_iff]
    omega
termination_by items => sizeOf items

theorem depthE_le_len : ∀ entries : List (RmpValue × RmpValue),
    depthE entries ≤ (encodeEntries entries).length
  | [] => by simp [depthE, encodeEntries]
  | (k, v) :: rest => by
    have h₁ := depthV_le_len k
    have h₂ := depthV_le_len v
    have h₃ := depthE_le_len rest
    simp only [depthE, encodeEntries, List.length_append, max_le_iff]
    omega
termination_by entries => sizeOf entries

end

/-! ### Round trip and injectivity of the full index-value encoding -/

theorem decodeIndexValue_encodeIndexValue (v : RmpValue) (hwf : wfV v = true) :
    decodeIndexValue (encodeIndexValue v) = some v := by
  unfold decodeIndexValue encodeIndexValue
  rw [b64Decode_b64Encode _ (encodeValue_bytes v hwf)]
  have h := roundtripV v ((encodeValue v).length + 1) [] hwf
    (by have := depthV_le_len v; omega)
  rw [List.append_nil] at h
  simp [h]

theorem encodeIndexValue_inj {v₁ v₂ : RmpValue} (h₁ : wfV v₁ = true) (h₂ : wfV v₂ = true)
    (he : encodeIndexValue v₁ = encodeIndexValue v₂) : v₁ = v₂ := by
  have r₁ := decodeIndexValue_encodeIndexValue v₁ h₁
  have r₂ := decodeIndexValue_encodeIndexValue v₂ h₂
  rw [he, r₂] at r₁
  exact (Option.some.inj r₁).symm

/-! ### The writer never fails -/

mutual

theorem writeValue_ok : ∀ (v : RmpValue) (buf : List Nat),
    writeValue v buf = .ok (buf ++ encodeValue v)
  | .nil, buf => by simp [writeValue, vecWrite, encodeValue]
  | .boolean false, buf => by simp [writeValue, vecWrite, encodeValue]
  | .boolean true, buf => by simp [writeValue, vecWrite, encodeValue]
  | .integer n, buf => by simp [writeValue, vecWrite, encodeValue]
  | .f32 bits, buf => by simp [writeValue, vecWrite, encodeValue]
  | .f64 bits, buf => by simp [writeValue, vecWrite, encodeValue]
  | .str s, buf => by simp [writeValue, vecWrite, encodeValue]
  | .bin d, buf => by simp [writeValue, vecWrite, encodeValue]
  | .ext ty d, buf => by simp [writeValue, vecWrite, encodeValue]
  | .array items, buf => by
    have h := writeList_ok items (buf ++ arrayHeader items.length)
    simp [writeValue, vecWrite, encodeValue, h]
  | .map entries, buf => by
    have h := writeEntries_ok entries (buf ++ mapHeader entries.length)
    simp [writeValue, vecWrite, encodeValue, h]
termination_by v _ => sizeOf v

theorem writeList_ok : ∀ (items : List RmpValue) (buf : List Nat),
    writeList items buf = .ok (buf ++ encodeList items)
  | [], buf => by simp [writeList, encodeList]
  | v :: vs, buf => by
    have h₁ := writeValue_ok v buf
    have h₂ := writeList_ok vs (buf ++ encodeValue v)
    simp [writeList, encodeList, h₁, h₂]
termination_by items _ => sizeOf items

theorem writeEntries_ok : ∀ (entries : List (RmpValue × RmpValue)) (buf : List Nat),
    writeEntries entries buf = .ok (buf ++ encodeEntries entries)
  | [], buf => by simp [writeEntries, encodeEntries]
  | (k, v) :: rest, buf => by
    have h₁ := writeValue_ok k buf
    have h₂ := writeValue_ok v (buf ++ encodeValue k)
    have h₃ := writeEntries_ok rest ((buf ++ encodeValue k) ++ encodeValue v)
    simp only [List.append_assoc] at h₂ h₃
    simp [writeEntries, encodeEntries, h₁, h₂, h₃, List.append_assoc]
termination_by entries _ => sizeOf entries

end

/-- `serialized_indices` evaluated in closed form: it serializes every
entry of `index_vals` and never fails. -/
theorem serializeEntriesOf_eq (vals : List (String × RmpValue)) :
    serializeEntriesOf vals =
      some (vals.map fun kv => (kv.1, b64Encode (encodeValue kv.2))) := by
  induction vals with
  | nil => rfl
  | cons kv rest ih =>
    obtain ⟨key, val⟩ := kv
    have h := writeValue_ok val []
    simp [serializeEntriesOf, h, ih]

/-! ## Behaviour of `Transaction::reader` / `Transaction::writer` -/

theorem transaction_reader_eq (db : Database) (br : Nat → Except RedbError Nat) :
    Transaction.reader db br =
      if db.database.lock.poisoned then Except.error (Error.poison "poisoned")
      else
        match br db.database.engine with
        | .error e => .error (.redb e)
        | .ok txn => .ok (.read txn) := by
  cases hp : db.database.lock.poisoned <;>
    simp [Transaction.reader, RwLockState.read, Database.db, hp]

theorem transaction_writer_eq (db : Database) (bw : Nat → Except RedbError Nat) :
    Transaction.writer db bw =
      if db.database.lock.poisoned then Except.error (Error.poison "poisoned")
      else
        match bw db.database.engine with
        | .error e => .error (.redb e)
        | .ok txn => .ok (.write txn) := by
  cases hp : db.database.lock.poisoned <;>
    simp [Transaction.writer, RwLockState.read, Database.db, hp]

/-- A concrete, healthy in-memory handle, for witnesses. -/
def sampleDb : Database :=
  { database := { lock := { poisoned := false }, engine := 0 },
    location := .inMemory }

/-! ## Claim theorems -/

/-- C3: `Database::collection::<T>(name)` is a total (hence pure and
non-failing) function of the handle, name, and `T::index_keys()`; the
derived main table name is exactly `"collections/<name>"`; every declared
index key `k` maps to exactly `"collections/<name>/index/<k>"` (and those
are all the index tables); and the derivation does not depend on the
handle, so equal inputs always yield equal table names. -/
theorem collection_table_names (db db' : Database) (name : String)
    (keys : List String) :
    (Database.collection db name keys).main_table_name = "collections/" ++ name ∧
    ((Database.collection db name keys).index_table_names =
      keys.map fun k => (k, "collections/" ++ name ++ "/index/" ++ k)) ∧
    (∀ k ∈ keys, (k, "collections/" ++ name ++ "/index/" ++ k) ∈
      (Database.collection db name keys).index_table_names) ∧
    (Database.collection db name keys).main_table_name =
      (Database.collection db' name keys).main_table_name ∧
    (Database.collection db name keys).index_table_names =
      (Database.collection db' name keys).index_table_names := by
  refine ⟨rfl, rfl, ?_, rfl, rfl⟩
  intro k hk
  simp only [Database.collection, Collection.new, Collection.index_table_names,
    Collection.name, List.mem_map]
  exact ⟨k, hk, rfl⟩

theorem collection_table_names_witness :
    (Database.collection sampleDb "users" ["email"]).main_table_name =
      "collections/users" ∧
    ("email", "collections/users/index/email") ∈
      (Database.collection sampleDb "users" ["email"]).index_table_names :=
  ⟨(collection_table_names sampleDb sampleDb "users" ["email"]).1,
    (collection_table_names sampleDb sampleDb "users" ["email"]).2.2.1 "email"
      (by simp)⟩

/-- C5: `Id` is fixed-width 16 bytes; `from_bytes ∘ as_bytes` is the
identity; and `Id::compare` on the byte encodings is exactly the numeric
order of the underlying unsigned 128-bit values. -/
theorem id_value_key_spec (x y : Id)
    (hx : x.u128 < 2 ^ 128) (hy : y.u128 < 2 ^ 128) :
    Id.fixed_width = some 16 ∧
    Id.from_bytes (Id.as_bytes x) = x ∧
    Id.compare (Id.as_bytes x) (Id.as_bytes y) = natOrd x.u128 y.u128 := by
  obtain ⟨xv⟩ := x
  obtain ⟨yv⟩ := y
  refine ⟨rfl, ?_, ?_⟩
  · unfold Id.from_bytes Id.as_bytes
    rw [leVal_leBytes _ _ (lt_of_lt_of_le hx (by norm_num))]
  · unfold Id.compare Id.as_bytes
    rw [leVal_leBytes _ _ (lt_of_lt_of_le hx (by norm_num)),
      leVal_leBytes _ _ (lt_of_lt_of_le hy (by norm_num))]

theorem id_value_key_spec_witness :
    Id.fixed_width = some 16 ∧
    Id.from_bytes (Id.as_bytes ⟨5⟩) = (⟨5⟩ : Id) ∧
    Id.compare (Id.as_bytes ⟨5⟩) (Id.as_bytes ⟨7⟩) = natOrd 5 7 :=
  id_value_key_spec ⟨5⟩ ⟨7⟩ (by decide) (by decide)

/-- C10: the derived in-memory `Ord` on `Id` (lexicographic over the
UUID's big-endian bytes) agrees with `Id::compare` over the little-endian
`as_bytes` encoding — both are the numeric order of the `u128` value. -/
theorem id_cmp_agrees_with_key_compare (x y : Id)
    (hx : x.u128 < 2 ^ 128) (hy : y.u128 < 2 ^ 128) :
    Id.cmp x y = Id.compare (Id.as_bytes x) (Id.as_bytes y) ∧
    Id.cmp x y = natOrd x.u128 y.u128 := by
  have hx' : x.u128 < 256 ^ 16 := lt_of_lt_of_le hx (by norm_num)
  have hy' : y.u128 < 256 ^ 16 := lt_of_lt_of_le hy (by norm_num)
  have hlex : Id.cmp x y = natOrd x.u128 y.u128 := by
    unfold Id.cmp
    exact lexCompare_beBytes 16 _ _ hx' hy'
  refine ⟨?_, hlex⟩
  unfold Id.compare Id.as_bytes
  rw [leVal_leBytes _ _ hx', leVal_leBytes _ _ hy', hlex]

theorem id_cmp_agrees_witness :
    Id.cmp ⟨300⟩ ⟨5⟩ = Id.compare (Id.as_bytes ⟨300⟩) (Id.as_bytes ⟨5⟩) :=
  (id_cmp_agrees_with_key_compare ⟨300⟩ ⟨5⟩ (by decide) (by decide)).1

/-- C6: a successful `open(path)` yields a handle whose `location()` is
`Filesystem(path)`; a successful `open_in_memory()` yields `InMemory`;
`location()` is a pure projection (the whole embedding is effect-free),
and no handle-producing operation changes the location: cloning preserves
it and the handle a collection captures has the same location. -/
theorem database_location_spec (path : String) (r r' : Except RedbError Nat)
    (db₁ db₂ db : Database) (name : String) (keys : List String) :
    (Database.«open» path r = .ok db₁ → db₁.location = .filesystem path) ∧
    (Database.open_in_memory r' = .ok db₂ → db₂.location = .inMemory) ∧
    (Database.clone db).location = db.location ∧
    ((Database.collection db name keys).database).location = db.location := by
  refine ⟨?_, ?_, rfl, rfl⟩
  · intro h
    cases r with
    | error e => simp [Database.«open»] at h
    | ok eng =>
      simp only [Database.«open», Except.ok.injEq] at h
      rw [← h]
      rfl
  · intro h
    cases r' with
    | error e => simp [Database.open_in_memory] at h
    | ok eng =>
      simp only [Database.open_in_memory, Except.ok.injEq] at h
      rw [← h]
      rfl

theorem database_location_spec_witness :
    sampleDb.location = DatabaseLocation.inMemory :=
  (database_location_spec "data.redb" (.ok 0) (.ok 0) sampleDb sampleDb sampleDb
    "users" []).2.1 rfl

/-- C7: `reader()` yields a `Read` transaction and `writer()` a `Write`
one; each succeeds exactly when the handle-level lock is not poisoned and
the engine accepts, the failures being the poisoning error and the
wrapped engine error respectively; and the lock acquisition both paths
perform (`RwLock::read`) only ever grants a *shared* guard. -/
theorem reader_writer_spec (db : Database) (br bw : Nat → Except RedbError Nat)
    (l : RwLockState) :
    ((∃ t, Database.reader db br = .ok t) ↔
      db.database.lock.poisoned = false ∧ ∃ r, br db.database.engine = .ok r) ∧
    (∀ t, Database.reader db br = .ok t → ∃ r, t = .read r) ∧
    ((∃ t, Database.writer db bw = .ok t) ↔
      db.database.lock.poisoned = false ∧ ∃ r, bw db.database.engine = .ok r) ∧
    (∀ t, Database.writer db bw = .ok t → ∃ r, t = .write r) ∧
    (∀ g, RwLockState.read l = .ok g → g = .shared) ∧
    (db.database.lock.poisoned = true →
      Database.reader db br = .error (.poison "poisoned") ∧
      Database.writer db bw = .error (.poison "poisoned")) ∧
    (∀ e, db.database.lock.poisoned = false → br db.database.engine = .error e →
      Database.reader db br = .error (.redb e)) ∧
    (∀ e, db.database.lock.poisoned = false → bw db.database.engine = .error e →
      Database.writer db bw = .error (.redb e)) := by
  have hcl : Database.clone db = db := rfl
  have er : Database.reader db br = _ := transaction_reader_eq db br
  have ew : Database.writer db bw = _ := transaction_writer_eq db bw
  refine ⟨?_, ?_, ?_, ?_, ?_, ?_, ?_, ?_⟩
  · rw [er]
    cases hp : db.database.lock.poisoned <;> simp [hp]
    cases hbr : br db.database.engine <;> simp [hbr]
  · intro t ht
    rw [er] at ht
    cases hp : db.database.lock.poisoned <;> rw [hp] at ht <;> simp at ht
    cases hbr : br db.database.engine <;> rw [hbr] at ht <;> simp at ht
    exact ⟨_, ht.symm⟩
  · rw [ew]
    cases hp : db.database.lock.poisoned <;> simp [hp]
    cases hbw : bw db.database.engine <;> simp [hbw]
  · intro t ht
    rw [ew] at ht
    cases hp : db.database.lock.poisoned <;> rw [hp] at ht <;> simp at ht
    cases hbw : bw db.database.engine <;> rw [hbw] at ht <;> simp at ht
    exact ⟨_, ht.symm⟩
  · intro g hg
    unfold RwLockState.read at hg
    cases hp : l.poisoned <;> rw [hp] at hg <;> simp at hg
    exact hg.symm
  · intro hp
    rw [er, ew, hp]
    exact ⟨rfl, rfl⟩
  · intro e hp hbr
    rw [er, hp, hbr]
    simp
  · intro e hp hbw
    rw [ew, hp, hbw]
    simp

theorem reader_writer_spec_witness :
    ∃ t, Database.reader sampleDb (fun _ => .ok 7) = .ok t :=
  (reader_writer_spec sampleDb (fun _ => .ok 7) (fun _ => .ok 7)
    ⟨false⟩).1.mpr ⟨rfl, 7, rfl⟩

/-- C1 (modelled from the spec, see `Transaction.commit` / `Transaction.abort`):
with a second live reference (`strong > 1`), `commit` and `abort` fail
with the shared-ownership violation carrying the observed strong/weak
counts and leave the handle — in particular its `finalized` flag —
untouched; after the other reference is dropped (`strong = 1`, guard not
poisoned) the retry delegates to the engine: an engine error is surfaced
as the wrapped engine error with the transaction still unfinalized, and
engine success finalizes the transaction. -/
theorem commit_abort_shared_ownership (h : WriteHandle)
    (ec ea : Except RedbError Unit) (hs : 1 < h.strong) (hnp : h.poisoned = false) :
    Transaction.commit h ec = (.error (.arcReferences h.strong h.weak), h) ∧
    Transaction.abort h ea = (.error (.arcReferences h.strong h.weak), h) ∧
    Transaction.commit { h with strong := 1 } (.ok ()) =
      (.ok (), { h with strong := 1, finalized := true }) ∧
    Transaction.abort { h with strong := 1 } (.ok ()) =
      (.ok (), { h with strong := 1, finalized := true }) ∧
    (∀ e, Transaction.commit { h with strong := 1 } (.error e) =
      (.error (.redb e), { h with strong := 1 })) ∧
    (∀ e, Transaction.abort { h with strong := 1 } (.error e) =
      (.error (.redb e), { h with strong := 1 })) := by
  unfold Transaction.commit Transaction.abort Error.arc_refs
  refine ⟨?_, ?_, ?_, ?_, ?_, ?_⟩
  · rw [if_pos hs]
  · rw [if_pos hs]
  · simp [hnp]
  · simp [hnp]
  · intro e; simp [hnp]
  · intro e; simp [hnp]

theorem commit_abort_shared_ownership_witness :
    Transaction.commit ⟨2, 0, false, false⟩ (.ok ()) =
      (.error (.arcReferences 2 0), ⟨2, 0, false, false⟩) ∧
    Transaction.commit ⟨1, 0, false, false⟩ (.ok ()) =
      (.ok (), ⟨1, 0, false, true⟩) :=
  ⟨(commit_abort_shared_ownership ⟨2, 0, false, false⟩ (.ok ()) (.ok ())
      (by decide) rfl).1,
    (commit_abort_shared_ownership ⟨2, 0, false, false⟩ (.ok ()) (.ok ())
      (by decide) rfl).2.2.1⟩

/-- C2 counterexample: the bit patterns of `0.0f64` and `-0.0f64` are
logically equal (IEEE-754 `==`, as `rmpv::Value`'s `PartialEq` compares
floats) yet their index encodings differ, so "encodings are equal iff the
values are logically equal" fails. -/
theorem index_encoding_not_logical_iff :
    ¬ (encodeIndexValue (.f64 0) = encodeIndexValue (.f64 9223372036854775808) ↔
       logicalEqV (.f64 0) (.f64 9223372036854775808) = true) := by
  decide

/-- C2 (amended): the index encoding is deterministic, decoding the
encoding recovers the value *structurally* (bit-for-bit on floats), and
two well-formed values have equal encodings iff they are structurally
equal. -/
theorem index_encoding_roundtrip (v : RmpValue) (hv : wfV v = true) :
    encodeIndexValue v = encodeIndexValue v ∧
    decodeIndexValue (encodeIndexValue v) = some v ∧
    ∀ v₂, wfV v₂ = true → (encodeIndexValue v = encodeIndexValue v₂ ↔ v = v₂) := by
  refine ⟨rfl, decodeIndexValue_encodeIndexValue v hv, ?_⟩
  intro v₂ h₂
  constructor
  · exact fun he => encodeIndexValue_inj hv h₂ he
  · rintro rfl
    rfl

theorem index_encoding_roundtrip_witness :
    decodeIndexValue (encodeIndexValue (.str [97])) = some (.str [97]) :=
  (index_encoding_roundtrip (.str [97]) (by decide)).2.1

/-- C4: the binary-to-text step applied to any byte string the
structured-value codec produces is exactly invertible and its output
contains no padding character `'='` (code 61). -/
theorem b64_preserves_codec_bytes (v : RmpValue) (hv : wfV v = true) :
    b64Decode (b64Encode (encodeValue v)) = some (encodeValue v) ∧
    61 ∉ b64Encode (encodeValue v) :=
  ⟨b64Decode_b64Encode _ (encodeValue_bytes v hv), b64Encode_no_pad _⟩

theorem b64_preserves_codec_bytes_witness :
    b64Decode (b64Encode (encodeValue (.integer 300))) =
      some (encodeValue (.integer 300)) :=
  (b64_preserves_codec_bytes (.integer 300) (by decide)).1

/-- C8: `serialized_indices` is total — the msgpack writer against an
in-memory `Vec` always returns `Ok`, so the `.unwrap()` in the loop is
unreachable and the whole function always produces a value. -/
theorem serialized_indices_total (d : Document) :
    (Document.serialized_indices d).isSome = true ∧
    ∀ (v : RmpValue) (buf : List Nat), writeValue v buf = .ok (buf ++ encodeValue v) := by
  constructor
  · rw [Document.serialized_indices, serializeEntriesOf_eq]
    rfl
  · exact writeValue_ok

/-- C9: the key set of `serialized_indices` is exactly the key set of
`index_vals()`, and the result depends only on `index_vals()` — the
static `index_keys()` list is never consulted. -/
theorem serialized_indices_keys (d d₂ : Document) :
    (∃ out, Document.serialized_indices d = some out ∧
      out.map Prod.fst = d.index_vals.map Prod.fst) ∧
    (d.index_vals = d₂.index_vals →
      Document.serialized_indices d = Document.serialized_indices d₂) := by
  constructor
  · rw [Document.serialized_indices, serializeEntriesOf_eq]
    exact ⟨_, rfl, by simp⟩
  · intro h
    rw [Document.serialized_indices, Document.serialized_indices, h]

theorem serialized_indices_keys_witness :
    Document.serialized_indices ⟨["a", "b"], [("a", .integer 1), ("c", .integer 2)]⟩ =
      Document.serialized_indices ⟨[], [("a", .integer 1), ("c", .integer 2)]⟩ :=
  (serialized_indices_keys ⟨["a", "b"], [("a", .integer 1), ("c", .integer 2)]⟩
    ⟨[], [("a", .integer 1), ("c", .integer 2)]⟩).2 rfl

end Scarf
